import Mathlib

/- Verification of the KarpelesLab/ini INI-file parser and serializer.

   The Go source (ini.go) is shallowly embedded: Go strings become lists of
   characters, the Ini map-of-maps becomes an association list with Go map
   semantics (replace-on-update, unique names), and ReadFrom / WriteTo become
   pure functions over those. Go's line scanner (bufio.ScanLines), whitespace
   trimming (strings.TrimSpace / unicode.IsSpace) and ASCII case folding
   (strings.ToLower restricted to its ASCII fragment) are modelled explicitly. -/

namespace KLIni

/-- Go strings are modelled as lists of characters. -/
abbrev Str := List Char

/-- The whitespace code points recognised by Go's unicode.IsSpace, used by
strings.TrimSpace: ASCII whitespace plus the Unicode White_Space set. -/
def goSpaceChars : List Char :=
  ['\t', '\n', '\u000B', '\u000C', '\r', ' ', '\u0085', '\u00A0',
   '\u1680', '\u2000', '\u2001', '\u2002', '\u2003', '\u2004', '\u2005',
   '\u2006', '\u2007', '\u2008', '\u2009', '\u200A', '\u2028', '\u2029',
   '\u202F', '\u205F', '\u3000']

/-- Model of unicode.IsSpace. -/
def goIsSpace (c : Char) : Bool := decide (c ∈ goSpaceChars)

/-- strings.TrimSpace, left half: drop leading whitespace. -/
def trimLeft (s : Str) : Str := s.dropWhile goIsSpace

/-- strings.TrimSpace, right half: drop trailing whitespace. -/
def trimRight (s : Str) : Str := (s.reverse.dropWhile goIsSpace).reverse

/-- Model of strings.TrimSpace. -/
def trimSpace (s : Str) : Str := trimRight (trimLeft s)

/-- The ASCII upper/lower case table. -/
def lowerPairs : List (Char × Char) :=
  [('A', 'a'), ('B', 'b'), ('C', 'c'), ('D', 'd'), ('E', 'e'), ('F', 'f'),
   ('G', 'g'), ('H', 'h'), ('I', 'i'), ('J', 'j'), ('K', 'k'), ('L', 'l'),
   ('M', 'm'), ('N', 'n'), ('O', 'o'), ('P', 'p'), ('Q', 'q'), ('R', 'r'),
   ('S', 's'), ('T', 't'), ('U', 'u'), ('V', 'v'), ('W', 'w'), ('X', 'x'),
   ('Y', 'y'), ('Z', 'z')]

/-- Model of strings.ToLower on one character (the ASCII fragment of the
Unicode simple case mapping applied by the Go standard library). -/
def goToLowerChar (c : Char) : Char :=
  match lowerPairs.find? (fun p => p.1 == c) with
  | some p => p.2
  | none => c

/-- Model of strings.ToLower. -/
def goToLower (s : Str) : Str := s.map goToLowerChar

/-- One section: map from key to value (Go: map[string]string). -/
abbrev Sectn := List (Str × Str)

/-- type Ini map[string]map[string]string. -/
abbrev Ini := List (Str × Sectn)

/-- func New() Ini. -/
def New : Ini := []

/-- The implicit section name "root". -/
def rootName : Str := ['r', 'o', 'o', 't']

/-- First-match association lookup (Go map read i[section]). -/
def findSec : Ini → Str → Option Sectn
  | [], _ => none
  | (n, s) :: rest, sec => if n = sec then some s else findSec rest sec

/-- Go map read s[key]. -/
def findKey : Sectn → Str → Option Str
  | [], _ => none
  | (k', v) :: rest, k => if k' = k then some v else findKey rest k

/-- Go map write s[k] = v: replace the existing binding, else add one. -/
def updAssoc (k v : Str) : Sectn → Sectn
  | [] => [(k, v)]
  | (k', v') :: rest =>
    if k' = k then (k, v) :: rest else (k', v') :: updAssoc k v rest

/-- Write key k to value v inside section sec of the document, creating the
section entry when absent (names are already normalized by the callers).
This is the i[section] lookup / make / assign sequence shared by ReadFrom
and Set. -/
def setSecEntry (sec k v : Str) : Ini → Ini
  | [] => [(sec, [(k, v)])]
  | (n, s) :: rest =>
    if n = sec then (n, updAssoc k v s) :: rest
    else (n, s) :: setSecEntry sec k v rest

/-- func (i Ini) Get(section, key string) (string, bool); the bool is
modelled by Option. -/
def Get (doc : Ini) (sec k : Str) : Option Str :=
  match findSec doc (goToLower sec) with
  | none => none
  | some s => findKey s (goToLower k)

/-- func (i Ini) Set(section, key, value string). -/
def Set (doc : Ini) (sec k v : Str) : Ini :=
  setSecEntry (goToLower sec) (goToLower k) v doc

/-- Go map delete(s, key). -/
def delKey (k : Str) : Sectn → Sectn
  | [] => []
  | (k', v) :: rest => if k' = k then rest else (k', v) :: delKey k rest

/-- Go map delete(i, section). -/
def delSec (sec : Str) : Ini → Ini
  | [] => []
  | (n, s) :: rest => if n = sec then rest else (n, s) :: delSec sec rest

/-- In-place mutation of the section map held in the document. -/
def replaceSec (sec : Str) (s' : Sectn) : Ini → Ini
  | [] => []
  | (n, s) :: rest =>
    if n = sec then (n, s') :: rest else (n, s) :: replaceSec sec s' rest

/-- func (i Ini) Unset(section, key string): delete the key; when the
section becomes empty, delete the section entry as well. -/
def Unset (doc : Ini) (sec0 k0 : Str) : Ini :=
  match findSec doc (goToLower sec0) with
  | none => doc
  | some s =>
    if (delKey (goToLower k0) s).length = 0 then delSec (goToLower sec0) doc
    else replaceSec (goToLower sec0) (delKey (goToLower k0) s) doc

/-- func (i Ini) HasSection(section string) bool. -/
def HasSection (doc : Ini) (sec : Str) : Bool :=
  (findSec doc (goToLower sec)).isSome

/-- The character set of the needsQuotes check in writeSection:
strings.ContainsAny(v, " \t\n\r\"'=;#[]").  Note: no backslash. -/
def quoteChars : List Char :=
  [' ', '\t', '\n', '\r', '"', '\'', '=', ';', '#', '[', ']']

/-- needsQuotes := strings.ContainsAny(v, " \t\n\r\"'=;#[]"). -/
def needsQuotes (v : Str) : Bool := v.any (fun c => decide (c ∈ quoteChars))

/-- The escape applied to one character of a quoted value in writeSection. -/
def escChar (c : Char) : Str :=
  if c = '"' then ['\\', '"']
  else if c = '\\' then ['\\', '\\']
  else if c = '\n' then ['\\', 'n']
  else if c = '\r' then ['\\', 'r']
  else if c = '\t' then ['\\', 't']
  else [c]

/-- The escaping loop of writeSection. -/
def escapeValue : Str → Str
  | [] => []
  | c :: cs => escChar c ++ escapeValue cs

/-- The text written for a value: quoted and escaped when needsQuotes,
verbatim otherwise. -/
def valueText (v : Str) : Str :=
  if needsQuotes v then '"' :: (escapeValue v ++ ['"']) else v

/-- One key=value line of writeSection (with its terminating newline). -/
def keyLine (k v : Str) : Str := k ++ '=' :: (valueText v ++ ['\n'])

/-- func (i Ini) writeSection: emit every key=value line of a section. -/
def writeSection : Sectn → Str
  | [] => []
  | (k, v) :: rest => keyLine k v ++ writeSection rest

/-- The WriteTo loop over non-root sections: header line, key lines, and a
blank separator line, skipping root and empty sections. -/
def writeRest : Ini → Str
  | [] => []
  | (n, s) :: rest =>
    (if n = rootName ∨ s.length = 0 then []
     else '[' :: (n ++ ']' :: '\n' :: (writeSection s ++ ['\n']))) ++ writeRest rest

/-- The root part of WriteTo: the root section's lines followed by a blank
line, written only when the root section is present and non-empty. -/
def rootText : Option Sectn → Str
  | some s => if 0 < s.length then writeSection s ++ ['\n'] else []
  | none => []

/-- func (i Ini) WriteTo: root section first (when present and non-empty),
then every other section. -/
def writeTo (doc : Ini) : Str :=
  rootText (findSec doc rootName) ++ writeRest doc

/-- The three format-error kinds produced by ReadFrom. -/
inductive ErrKind where
  | emptySectionName : ErrKind
  | emptyKeyName : ErrKind
  | missingDelimiter : ErrKind
deriving DecidableEq, Repr

/-- A format error: 1-based line number plus kind (Go: fmt.Errorf("line %d: ...")). -/
structure ParseError where
  lineNum : Nat
  kind : ErrKind
deriving DecidableEq, Repr

/-- strings.IndexByte(line, '=') followed by the line[:pos] / line[pos+1:]
split: returns the text before and after the first '='. -/
def splitFirstEq : Str → Option (Str × Str)
  | [] => none
  | c :: cs =>
    if c = '=' then some ([], cs)
    else
      match splitFirstEq cs with
      | none => none
      | some (a, b) => some (c :: a, b)

/-- The escape-decoding loop of ReadFrom; the Bool is the escape flag. -/
def unesc (quote : Char) : Bool → Str → Str
  | esc, [] => if esc then ['\\'] else []
  | true, c :: cs =>
    (if c = 'n' then ['\n']
     else if c = 'r' then ['\r']
     else if c = 't' then ['\t']
     else if c = '\\' then ['\\']
     else if c = '"' ∨ c = '\'' then (if c = quote then [c] else ['\\', c])
     else ['\\', c]) ++ unesc quote false cs
  | false, c :: cs =>
    if c = '\\' then unesc quote true cs else c :: unesc quote false cs

/-- Quote stripping and escape decoding applied by ReadFrom to a trimmed
value. -/
def decodeValue (v : Str) : Str :=
  match v with
  | [] => []
  | c :: cs =>
    if 2 ≤ (c :: cs).length ∧
       ((c = '"' ∧ (c :: cs).getLast? = some '"') ∨
        (c = '\'' ∧ (c :: cs).getLast? = some '\'')) then
      let inner := cs.dropLast
      if '\\' ∈ inner then unesc c false inner else inner
    else c :: cs

/-- The dispatch of the ReadFrom scan loop on an already-trimmed line:
blank / comment / section header / key=value, updating the document and
the current section name. -/
def processTrimmed (doc : Ini) (sec : Str) : Str → Except ErrKind (Ini × Str)
  | [] => .ok (doc, sec)
  | c :: rest =>
    if c = ';' ∨ c = '#' then .ok (doc, sec)
    else if 2 ≤ (c :: rest).length ∧ c = '[' ∧ (c :: rest).getLast? = some ']' then
      if goToLower (trimSpace rest.dropLast) = [] then .error .emptySectionName
      else .ok (doc, goToLower (trimSpace rest.dropLast))
    else
      match splitFirstEq (c :: rest) with
      | none => .error .missingDelimiter
      | some (before, after) =>
        if goToLower (trimSpace before) = [] then .error .emptyKeyName
        else .ok (setSecEntry sec (goToLower (trimSpace before))
            (decodeValue (trimSpace after)) doc, sec)

/-- The body of the ReadFrom scan loop for one raw line: trim, then
dispatch. -/
def processLine (doc : Ini) (sec : Str) (rawLine : Str) : Except ErrKind (Ini × Str) :=
  processTrimmed doc sec (trimSpace rawLine)

/-- The ReadFrom scan loop over a list of lines, threading the document,
the current section name and the 1-based line counter, and stopping at the
first error. -/
def parseLinesSt : Ini × Str → Nat → List Str → (Ini × Str) × Option ParseError
  | st, _, [] => (st, none)
  | (doc, sec), n, l :: rest =>
    match processLine doc sec l with
    | .error k => ((doc, sec), some ⟨n, k⟩)
    | .ok st' => parseLinesSt st' (n + 1) rest

/-- bufio.ScanLines drops one trailing carriage return from each line. -/
def dropCR (s : Str) : Str :=
  if s.getLast? = some '\r' then s.dropLast else s

/-- Accumulator-based splitter matching bufio.Scanner with ScanLines:
tokens are separated by newlines, a final token without a trailing newline
is produced, and input ending in a newline produces no extra empty token. -/
def goLinesAux : Str → Str → List Str
  | acc, [] => [dropCR acc.reverse]
  | acc, c :: cs =>
    if c = '\n' then
      dropCR acc.reverse ::
        (match cs with
         | [] => []
         | _ :: _ => goLinesAux [] cs)
    else goLinesAux (c :: acc) cs

/-- The sequence of lines delivered by bufio.Scanner (ScanLines) on the
given input; empty input yields no lines. -/
def goLines : Str → List Str
  | [] => []
  | c :: cs => goLinesAux [] (c :: cs)

/-- func (i Ini) ReadFrom: parse the input and merge the values into the
document; returns the document (mutated in place in Go) and the error, if
any.  Load is a thin wrapper around ReadFrom in the source. -/
def ReadFrom (doc : Ini) (input : Str) : Ini × Option ParseError :=
  ((parseLinesSt (doc, rootName) 1 (goLines input)).1.1,
   (parseLinesSt (doc, rootName) 1 (goLines input)).2)



/-! ### Helper lemmas: trimming -/

theorem dropWhile_eq_self_of_head (p : Char → Bool) (l : Str)
    (h : ∀ c, l.head? = some c → p c = false) : l.dropWhile p = l := by
  cases l with
  | nil => rfl
  | cons c cs => simp [List.dropWhile_cons, h c rfl]

theorem head?_dropWhile (p : Char → Bool) (l : Str) (c : Char)
    (h : (l.dropWhile p).head? = some c) : p c = false := by
  induction l with
  | nil => simp [List.dropWhile] at h
  | cons a l ih =>
    rw [List.dropWhile_cons] at h
    by_cases hp : p a
    · rw [if_pos hp] at h
      exact ih h
    · rw [if_neg hp] at h
      simp only [List.head?_cons, Option.some.injEq] at h
      subst h
      simpa using hp

theorem append_head? (l1 l2 : Str) (c : Char) (h : ∃ t, l1 ++ t = l2)
    (hh : l1.head? = some c) : l2.head? = some c := by
  obtain ⟨t, rfl⟩ := h
  cases l1 with
  | nil => simp at hh
  | cons a l => simpa using hh

theorem dropWhile_is_suffix (p : Char → Bool) (l : Str) :
    ∃ t, t ++ l.dropWhile p = l := by
  induction l with
  | nil => exact ⟨[], rfl⟩
  | cons a l ih =>
    rw [List.dropWhile_cons]
    by_cases hp : p a
    · rw [if_pos hp]
      obtain ⟨t, ht⟩ := ih
      exact ⟨a :: t, by simp [ht]⟩
    · rw [if_neg hp]
      exact ⟨[], rfl⟩

theorem trimRight_extends (l : Str) : ∃ t, trimRight l ++ t = l := by
  obtain ⟨t, ht⟩ := dropWhile_is_suffix goIsSpace l.reverse
  refine ⟨t.reverse, ?_⟩
  have := congrArg List.reverse ht
  simpa [trimRight] using this

theorem trimLeft_eq_self (l : Str) (h : ∀ c, l.head? = some c → goIsSpace c = false) :
    trimLeft l = l := dropWhile_eq_self_of_head _ _ h

theorem trimRight_eq_self (l : Str) (h : ∀ c, l.getLast? = some c → goIsSpace c = false) :
    trimRight l = l := by
  unfold trimRight
  rw [dropWhile_eq_self_of_head, List.reverse_reverse]
  intro c hc
  exact h c (by rwa [List.head?_reverse] at hc)

theorem trimSpace_eq_self (l : Str)
    (h1 : ∀ c, l.head? = some c → goIsSpace c = false)
    (h2 : ∀ c, l.getLast? = some c → goIsSpace c = false) : trimSpace l = l := by
  unfold trimSpace
  rw [trimLeft_eq_self l h1, trimRight_eq_self l h2]

theorem trimSpace_nil : trimSpace [] = [] := rfl

theorem head?_trimRight (l : Str) (c : Char) (h : (trimRight l).head? = some c) :
    l.head? = some c := append_head? _ _ _ (trimRight_extends l) h

theorem head?_trimSpace_not_space (l : Str) (c : Char)
    (h : (trimSpace l).head? = some c) : goIsSpace c = false := by
  unfold trimSpace at h
  exact head?_dropWhile goIsSpace l c (head?_trimRight _ c h)

theorem getLast?_trimSpace_not_space (l : Str) (c : Char)
    (h : (trimSpace l).getLast? = some c) : goIsSpace c = false := by
  unfold trimSpace trimRight at h
  rw [List.getLast?_reverse] at h
  exact head?_dropWhile goIsSpace _ c h

/-! ### Helper lemmas: case folding -/

theorem goIsSpace_goToLowerChar (c : Char) :
    goIsSpace (goToLowerChar c) = goIsSpace c := by
  by_cases h : ∃ p ∈ lowerPairs, p.1 = c
  · obtain ⟨p, hp, hpc⟩ := h
    subst hpc
    fin_cases hp <;> decide
  · have hn : lowerPairs.find? (fun p => p.1 == c) = none := by
      rw [List.find?_eq_none]
      intro p hp
      simp only [beq_iff_eq]
      exact fun hc => h ⟨p, hp, hc⟩
    unfold goToLowerChar
    rw [hn]

theorem goToLower_eq_nil_iff (s : Str) : goToLower s = [] ↔ s = [] := by
  unfold goToLower
  simp

theorem head?_goToLower (s : Str) : (goToLower s).head? = s.head?.map goToLowerChar := by
  unfold goToLower
  cases s <;> simp

theorem getLast?_goToLower (s : Str) :
    (goToLower s).getLast? = s.getLast?.map goToLowerChar := by
  unfold goToLower
  induction s with
  | nil => simp
  | cons a l ih =>
    cases l with
    | nil => simp
    | cons b t => simpa using ih

theorem wfn_head_not_space (n : Str) (hw : goToLower (trimSpace n) = n) (c : Char)
    (h : n.head? = some c) : goIsSpace c = false := by
  rw [← hw, head?_goToLower] at h
  cases hh : (trimSpace n).head? with
  | none => rw [hh] at h; simp at h
  | some c0 =>
    rw [hh] at h
    simp only [Option.map_some', Option.some.injEq] at h
    rw [← h, goIsSpace_goToLowerChar]
    exact head?_trimSpace_not_space n c0 hh

theorem wfn_getLast_not_space (n : Str) (hw : goToLower (trimSpace n) = n) (c : Char)
    (h : n.getLast? = some c) : goIsSpace c = false := by
  rw [← hw, getLast?_goToLower] at h
  cases hh : (trimSpace n).getLast? with
  | none => rw [hh] at h; simp at h
  | some c0 =>
    rw [hh] at h
    simp only [Option.map_some', Option.some.injEq] at h
    rw [← h, goIsSpace_goToLowerChar]
    exact getLast?_trimSpace_not_space n c0 hh


/-! ### Helper lemmas: line splitting -/

theorem dropCR_eq_self (l : Str) (h : l.getLast? ≠ some '\r') : dropCR l = l := by
  unfold dropCR
  rw [if_neg h]

theorem goLines_of_ne_nil (s : Str) (h : s ≠ []) : goLines s = goLinesAux [] s := by
  cases s with
  | nil => exact absurd rfl h
  | cons c cs => rfl

theorem goLinesAux_newline (l rest acc : Str) (h : '\n' ∉ l) :
    goLinesAux acc (l ++ '\n' :: rest) = dropCR (acc.reverse ++ l) :: goLines rest := by
  induction l generalizing acc with
  | nil =>
    simp only [List.nil_append, List.append_nil]
    show goLinesAux acc ('\n' :: rest) = dropCR acc.reverse :: goLines rest
    unfold goLinesAux
    rw [if_pos rfl]
    cases rest with
    | nil => rfl
    | cons a b => rfl
  | cons x xs ih =>
    have hx : x ≠ '\n' := fun he => h (he ▸ List.mem_cons_self x xs)
    have hxs : '\n' ∉ xs := fun he => h (List.mem_cons_of_mem x he)
    show goLinesAux acc (x :: (xs ++ '\n' :: rest)) = _
    unfold goLinesAux
    rw [if_neg hx, ih (x :: acc) hxs]
    simp [List.append_assoc]

theorem goLines_line_append (l rest : Str) (h : '\n' ∉ l) (hcr : dropCR l = l) :
    goLines (l ++ '\n' :: rest) = l :: goLines rest := by
  have hne : l ++ '\n' :: rest ≠ [] := by simp
  rw [goLines_of_ne_nil _ hne, goLinesAux_newline l rest [] h]
  simp [hcr]

/-- Join a list of lines, terminating each with a newline; this is the shape
of the text that WriteTo emits. -/
def joinNL : List Str → Str
  | [] => []
  | l :: ls => l ++ '\n' :: joinNL ls

theorem joinNL_append (a b : List Str) : joinNL (a ++ b) = joinNL a ++ joinNL b := by
  induction a with
  | nil => rfl
  | cons l ls ih => simp [joinNL, ih]

theorem goLines_joinNL (ls : List Str) (h : ∀ l ∈ ls, '\n' ∉ l ∧ dropCR l = l) :
    goLines (joinNL ls) = ls := by
  induction ls with
  | nil => rfl
  | cons l ls ih =>
    obtain ⟨h1, h2⟩ := h l (List.mem_cons_self l ls)
    show goLines (l ++ '\n' :: joinNL ls) = l :: ls
    rw [goLines_line_append l _ h1 h2, ih (fun x hx => h x (List.mem_cons_of_mem _ hx))]

/-! ### Helper lemmas: the first-equals split -/

theorem splitFirstEq_append (k rest : Str) (h : '=' ∉ k) :
    splitFirstEq (k ++ '=' :: rest) = some (k, rest) := by
  induction k with
  | nil => simp [splitFirstEq]
  | cons c cs ih =>
    have hc : c ≠ '=' := fun he => h (he ▸ List.mem_cons_self c cs)
    have hcs : '=' ∉ cs := fun he => h (List.mem_cons_of_mem c he)
    show splitFirstEq (c :: (cs ++ '=' :: rest)) = _
    unfold splitFirstEq
    rw [if_neg hc, ih hcs]

theorem splitFirstEq_eq_none (l : Str) (h : '=' ∉ l) : splitFirstEq l = none := by
  induction l with
  | nil => rfl
  | cons c cs ih =>
    have hc : c ≠ '=' := fun he => h (he ▸ List.mem_cons_self c cs)
    have hcs : '=' ∉ cs := fun he => h (List.mem_cons_of_mem c he)
    unfold splitFirstEq
    rw [if_neg hc, ih hcs]

theorem splitFirstEq_some (l a b : Str) (h : splitFirstEq l = some (a, b)) :
    l = a ++ '=' :: b ∧ '=' ∉ a := by
  induction l generalizing a with
  | nil => simp [splitFirstEq] at h
  | cons c cs ih =>
    unfold splitFirstEq at h
    by_cases hc : c = '='
    · rw [if_pos hc] at h
      simp only [Option.some.injEq, Prod.mk.injEq] at h
      obtain ⟨ha, hb⟩ := h
      subst ha; subst hb; subst hc
      exact ⟨rfl, List.not_mem_nil '='⟩
    · rw [if_neg hc] at h
      cases hr : splitFirstEq cs with
      | none => rw [hr] at h; simp at h
      | some p =>
        rw [hr] at h
        obtain ⟨a0, b0⟩ := p
        simp only [Option.some.injEq, Prod.mk.injEq] at h
        obtain ⟨ha, hb⟩ := h
        obtain ⟨he, hne⟩ := ih a0 (hr.trans (by rw [hb]))
        subst hb
        rw [← ha]
        constructor
        · simp [he]
        · intro hm
          rcases List.mem_cons.mp hm with h1 | h2
          · exact hc h1.symm
          · exact hne h2

/-! ### Helper lemmas: escaping and decoding -/

theorem escapeValue_append (a b : Str) :
    escapeValue (a ++ b) = escapeValue a ++ escapeValue b := by
  induction a with
  | nil => rfl
  | cons c cs ih => simp [escapeValue, ih]

theorem mem_escChar (a c : Char) (h : c ∈ escChar a) :
    c = a ∨ c ∈ ['\\', '"', 'n', 'r', 't'] := by
  unfold escChar at h
  by_cases e1 : a = '"'
  · rw [if_pos e1] at h
    right
    simp only [List.mem_cons, List.not_mem_nil, or_false] at h
    rcases h with rfl | rfl <;> decide
  · rw [if_neg e1] at h
    by_cases e2 : a = '\\'
    · rw [if_pos e2] at h
      right
      simp only [List.mem_cons, List.not_mem_nil, or_false] at h
      rcases h with rfl | rfl <;> decide
    · rw [if_neg e2] at h
      by_cases e3 : a = '\n'
      · rw [if_pos e3] at h
        right
        simp only [List.mem_cons, List.not_mem_nil, or_false] at h
        rcases h with rfl | rfl <;> decide
      · rw [if_neg e3] at h
        by_cases e4 : a = '\r'
        · rw [if_pos e4] at h
          right
          simp only [List.mem_cons, List.not_mem_nil, or_false] at h
          rcases h with rfl | rfl <;> decide
        · rw [if_neg e4] at h
          by_cases e5 : a = '\t'
          · rw [if_pos e5] at h
            right
            simp only [List.mem_cons, List.not_mem_nil, or_false] at h
            rcases h with rfl | rfl <;> decide
          · rw [if_neg e5] at h
            left; simpa using h

theorem mem_escapeValue_not_special (v : Str) (c : Char)
    (h : c ∈ escapeValue v) : c ≠ '\n' ∧ c ≠ '\r' := by
  induction v with
  | nil => simp [escapeValue] at h
  | cons a as ih =>
    simp only [escapeValue, List.mem_append] at h
    rcases h with hm | hm
    · rcases mem_escChar a c hm with he | he
      · subst he
        constructor
        · intro h3
          subst h3
          exact absurd hm (by decide)
        · intro h4
          subst h4
          exact absurd hm (by decide)
      · constructor <;> (intro hx; subst hx; revert he; decide)
    · exact ih hm

theorem unesc_escapeValue (v : Str) :
    unesc '"' false (escapeValue v) = v := by
  induction v with
  | nil => rfl
  | cons c cs ih =>
    by_cases h1 : c = '"'
    · subst h1
      simp [escapeValue, escChar, unesc, ih]
    · by_cases h2 : c = '\\'
      · subst h2
        simp [escapeValue, escChar, unesc, h1, ih]
      · by_cases h3 : c = '\n'
        · subst h3
          simp [escapeValue, escChar, unesc, ih]
        · by_cases h4 : c = '\r'
          · subst h4
            simp [escapeValue, escChar, unesc, ih]
          · by_cases h5 : c = '\t'
            · subst h5
              simp [escapeValue, escChar, unesc, ih]
            · have he : escChar c = [c] := by
                unfold escChar
                rw [if_neg h1, if_neg h2, if_neg h3, if_neg h4, if_neg h5]
              simp [escapeValue, he, unesc, h2, ih]

theorem escapeValue_no_backslash (v : Str) (h : '\\' ∉ escapeValue v) :
    escapeValue v = v := by
  induction v with
  | nil => rfl
  | cons c cs ih =>
    simp only [escapeValue, List.mem_append] at h
    push_neg at h
    obtain ⟨h1, h2⟩ := h
    have he : escChar c = [c] := by
      unfold escChar
      by_cases e1 : c = '"'
      · subst e1; simp [escChar] at h1
      · by_cases e2 : c = '\\'
        · subst e2; simp [escChar] at h1
        · by_cases e3 : c = '\n'
          · subst e3; simp [escChar] at h1
          · by_cases e4 : c = '\r'
            · subst e4; simp [escChar] at h1
            · by_cases e5 : c = '\t'
              · subst e5; simp [escChar] at h1
              · rw [if_neg e1, if_neg e2, if_neg e3, if_neg e4, if_neg e5]
    simp [escapeValue, he, ih h2]

theorem needsQuotes_false_not_mem (v : Str) (h : needsQuotes v = false) (c : Char)
    (hc : c ∈ quoteChars) : c ∉ v := by
  intro hm
  unfold needsQuotes at h
  rw [List.any_eq_false] at h
  have := h c hm
  simp only [decide_eq_true_eq] at this
  exact this hc

theorem decodeValue_cons (c : Char) (cs : Str) :
    decodeValue (c :: cs) =
      if 2 ≤ (c :: cs).length ∧
         ((c = '"' ∧ (c :: cs).getLast? = some '"') ∨
          (c = '\'' ∧ (c :: cs).getLast? = some '\'')) then
        (if '\\' ∈ cs.dropLast then unesc c false cs.dropLast else cs.dropLast)
      else c :: cs := rfl

theorem decodeValue_quoted (v : Str) :
    decodeValue ('"' :: (escapeValue v ++ ['"'])) = v := by
  have hlast : (('"' : Char) :: (escapeValue v ++ ['"'])).getLast? = some '"' := by
    have he : ('"' : Char) :: (escapeValue v ++ ['"']) = ('"' :: escapeValue v) ++ ['"'] := by
      simp
    rw [he, List.getLast?_concat]
  rw [decodeValue_cons, if_pos]
  · simp only [List.dropLast_concat]
    by_cases hb : '\\' ∈ escapeValue v
    · rw [if_pos hb]
      exact unesc_escapeValue v
    · rw [if_neg hb]
      exact escapeValue_no_backslash v hb
  · refine ⟨by simp, Or.inl ⟨rfl, hlast⟩⟩

theorem decodeValue_bare (v : Str) (h : needsQuotes v = false) : decodeValue v = v := by
  cases v with
  | nil => rfl
  | cons c cs =>
    have hdq : c ≠ '"' := by
      intro he
      exact (needsQuotes_false_not_mem _ h '"' (by decide))
        (he ▸ List.mem_cons_self c cs)
    have hsq : c ≠ '\'' := by
      intro he
      exact (needsQuotes_false_not_mem _ h '\'' (by decide))
        (he ▸ List.mem_cons_self c cs)
    rw [decodeValue_cons, if_neg]
    rintro ⟨-, h2 | h2⟩
    · exact hdq h2.1
    · exact hsq h2.1

/-! ### Well-formedness of documents built through Set / Parse -/

/-- A well-formed section or key name: non-empty, no newline, and equal to
its whitespace-trimmed lower-cased form. -/
abbrev wfName (n : Str) : Prop := n ≠ [] ∧ '\n' ∉ n ∧ goToLower (trimSpace n) = n

/-- A well-formed key additionally contains no '=' and does not start with
';' or '#'. -/
abbrev wfKey (k : Str) : Prop :=
  wfName k ∧ '=' ∉ k ∧ k.head? ≠ some ';' ∧ k.head? ≠ some '#'

/-- A value that survives the round trip: either the serializer quotes it,
or it is unchanged by whitespace trimming. -/
abbrev wfVal (v : Str) : Prop := needsQuotes v = true ∨ trimSpace v = v

/-- A well-formed non-empty section with well-formed keys and values. -/
abbrev wfSectn (s : Sectn) : Prop :=
  s ≠ [] ∧ (s.map Prod.fst).Nodup ∧ ∀ p ∈ s, wfKey p.1 ∧ wfVal p.2

/-- A well-formed document as built through Set / Parse. -/
abbrev wfDoc (d : Ini) : Prop :=
  (d.map Prod.fst).Nodup ∧ ∀ p ∈ d, wfName p.1 ∧ wfSectn p.2

/-! ### Helper lemmas: the lines emitted by the serializer -/

theorem head?_append_left (l1 l2 : Str) (h : l1 ≠ []) :
    (l1 ++ l2).head? = l1.head? := by
  cases l1 with
  | nil => exact absurd rfl h
  | cons a t => rfl

theorem getLast?_append_right (l1 l2 : Str) (h : l2 ≠ []) :
    (l1 ++ l2).getLast? = l2.getLast? := by
  rw [← List.head?_reverse, List.reverse_append,
    head?_append_left _ _ (by simpa using h), List.head?_reverse]

theorem getLast?_mem (l : Str) (c : Char) (h : l.getLast? = some c) : c ∈ l := by
  induction l with
  | nil => simp at h
  | cons a t ih =>
    cases t with
    | nil =>
      simp only [List.getLast?_singleton, Option.some.injEq] at h
      simp [h]
    | cons b u =>
      rw [List.getLast?_cons_cons] at h
      exact List.mem_cons_of_mem a (ih h)

theorem trimSpace_header (n : Str) :
    trimSpace ('[' :: (n ++ [']'])) = '[' :: (n ++ [']']) := by
  apply trimSpace_eq_self
  · intro c hc
    simp only [List.head?_cons, Option.some.injEq] at hc
    subst hc
    decide
  · intro c hc
    have he : (('[' : Char) :: (n ++ [']'])).getLast? = some ']' := by
      rw [show ('[' : Char) :: (n ++ [']']) = ('[' :: n) ++ [']'] by simp,
        List.getLast?_concat]
    rw [he] at hc
    injection hc with h2
    subst h2
    decide

theorem valueText_getLast (v : Str) (hv : wfVal v) (c : Char)
    (h : (valueText v).getLast? = some c) : goIsSpace c = false ∧ c ≠ ']' := by
  by_cases hq : needsQuotes v
  · unfold valueText at h
    rw [if_pos hq] at h
    rw [show ('"' : Char) :: (escapeValue v ++ ['"']) = ('"' :: escapeValue v) ++ ['"']
      by simp, List.getLast?_concat] at h
    injection h with h2
    subst h2
    exact ⟨by decide, by decide⟩
  · have hvt : trimSpace v = v := by
      rcases hv with hv | hv
      · exact absurd hv (by simpa using hq)
      · exact hv
    unfold valueText at h
    rw [if_neg hq] at h
    constructor
    · rw [← hvt] at h
      exact getLast?_trimSpace_not_space v c h
    · intro he
      subst he
      exact needsQuotes_false_not_mem v (by simpa using hq) ']' (by decide)
        (getLast?_mem v ']' h)

theorem valueText_no_newline (v : Str) (h : '\n' ∈ valueText v) : False := by
  by_cases hq : needsQuotes v
  · unfold valueText at h
    rw [if_pos hq] at h
    rcases List.mem_cons.mp h with h | h
    · exact absurd h (by decide)
    · rcases List.mem_append.mp h with h | h
      · exact absurd rfl (mem_escapeValue_not_special v '\n' h).1
      · simp at h
  · unfold valueText at h
    rw [if_neg hq] at h
    exact needsQuotes_false_not_mem v (by simpa using hq) '\n' (by decide) h

theorem keyLineBody_getLast (k v : Str) (hv : wfVal v) (c : Char)
    (h : (k ++ '=' :: valueText v).getLast? = some c) :
    goIsSpace c = false ∧ c ≠ ']' := by
  rw [getLast?_append_right _ _ (by simp)] at h
  cases hvt : valueText v with
  | nil =>
    rw [hvt] at h
    simp only [List.getLast?_singleton, Option.some.injEq] at h
    subst h
    exact ⟨by decide, by decide⟩
  | cons a t =>
    rw [hvt, List.getLast?_cons_cons] at h
    rw [← hvt] at h
    exact valueText_getLast v hv c h

theorem keyLineBody_trim (k v : Str) (hk : wfKey k) (hv : wfVal v) :
    trimSpace (k ++ '=' :: valueText v) = k ++ '=' :: valueText v := by
  obtain ⟨⟨hkne, hknl, hkeq⟩, -, -, -⟩ := hk
  apply trimSpace_eq_self
  · intro c hc
    rw [head?_append_left _ _ hkne] at hc
    exact wfn_head_not_space k hkeq c hc
  · intro c hc
    exact (keyLineBody_getLast k v hv c hc).1

theorem keyLineBody_no_newline (k v : Str) (hk : wfKey k) (hv : wfVal v) :
    '\n' ∉ (k ++ '=' :: valueText v) := by
  obtain ⟨⟨hkne, hknl, hkeq⟩, -, -, -⟩ := hk
  intro h
  rcases List.mem_append.mp h with h | h
  · exact hknl h
  · rcases List.mem_cons.mp h with h | h
    · exact absurd h (by decide)
    · exact valueText_no_newline v h

theorem keyLineBody_dropCR (k v : Str) (hv : wfVal v) :
    dropCR (k ++ '=' :: valueText v) = k ++ '=' :: valueText v := by
  apply dropCR_eq_self
  intro h
  have := (keyLineBody_getLast k v hv '\r' h).1
  exact absurd this (by decide)

theorem keyLineBody_not_header (k v : Str) (hv : wfVal v) :
    ¬((k ++ '=' :: valueText v).getLast? = some ']') := by
  intro h
  exact (keyLineBody_getLast k v hv ']' h).2 rfl

/-! ### Helper lemmas: processing single lines -/

theorem processLine_blank (doc : Ini) (sec : Str) (rawLine : Str)
    (h : trimSpace rawLine = []) : processLine doc sec rawLine = .ok (doc, sec) := by
  unfold processLine
  rw [h]
  rfl

theorem processLine_header (doc : Ini) (sec n : Str) (hne : n ≠ [])
    (hwf : goToLower (trimSpace n) = n) :
    processLine doc sec ('[' :: (n ++ [']'])) = .ok (doc, n) := by
  unfold processLine
  rw [trimSpace_header]
  have h1 : ¬(('[' : Char) = ';' ∨ ('[' : Char) = '#') := by decide
  have h2 : 2 ≤ (('[' : Char) :: (n ++ [']'])).length ∧ ('[' : Char) = '[' ∧
      (('[' : Char) :: (n ++ [']'])).getLast? = some ']' := by
    refine ⟨by simp, rfl, ?_⟩
    rw [show ('[' : Char) :: (n ++ [']']) = ('[' :: n) ++ [']'] by simp,
      List.getLast?_concat]
  simp only [processTrimmed, if_neg h1]
  rw [if_pos (show 2 ≤ (('[' : Char) :: (n ++ [']'])).length ∧ True ∧
      (('[' : Char) :: (n ++ [']'])).getLast? = some ']' from ⟨h2.1, trivial, h2.2.2⟩)]
  simp only [List.dropLast_concat, hwf, if_neg hne]

theorem processLine_keyLine (doc : Ini) (sec k v : Str) (hk : wfKey k) (hv : wfVal v) :
    processLine doc sec (k ++ '=' :: valueText v) =
      .ok (setSecEntry sec k v doc, sec) := by
  obtain ⟨⟨hkne, hknl, hkeq⟩, hkeq2, hc1, hc2⟩ := hk
  unfold processLine
  rw [keyLineBody_trim k v ⟨⟨hkne, hknl, hkeq⟩, hkeq2, hc1, hc2⟩ hv]
  obtain ⟨c0, k', rfl⟩ : ∃ c0 k', k = c0 :: k' := by
    cases k with
    | nil => exact absurd rfl hkne
    | cons a t => exact ⟨a, t, rfl⟩
  have hc0 : (c0 :: k').head? = some c0 := rfl
  have hnc : ¬(c0 = ';' ∨ c0 = '#') := by
    rintro (h | h)
    · exact hc1 (by rw [hc0, h])
    · exact hc2 (by rw [hc0, h])
  have hline : (c0 :: k') ++ '=' :: valueText v = c0 :: (k' ++ '=' :: valueText v) := rfl
  have hnh : ¬(2 ≤ (c0 :: (k' ++ '=' :: valueText v)).length ∧ c0 = '[' ∧
      (c0 :: (k' ++ '=' :: valueText v)).getLast? = some ']') := by
    rintro ⟨-, -, h3⟩
    have : ((c0 :: k') ++ '=' :: valueText v).getLast? = some ']' := by
      rw [hline]
      exact h3
    exact keyLineBody_not_header (c0 :: k') v hv this
  have hsplit : splitFirstEq (c0 :: (k' ++ '=' :: valueText v)) =
      some (c0 :: k', valueText v) := by
    rw [← hline]
    exact splitFirstEq_append (c0 :: k') (valueText v) hkeq2
  have hdec : decodeValue (trimSpace (valueText v)) = v := by
    by_cases hq : needsQuotes v
    · have hteq : trimSpace (valueText v) = valueText v := by
        apply trimSpace_eq_self
        · intro c hcb
          unfold valueText at hcb
          rw [if_pos hq] at hcb
          simp only [List.head?_cons, Option.some.injEq] at hcb
          subst hcb
          decide
        · intro c hcb
          exact (valueText_getLast v hv c hcb).1
      rw [hteq]
      unfold valueText
      rw [if_pos hq]
      exact decodeValue_quoted v
    · have hvt : trimSpace v = v := by
        rcases hv with hv | hv
        · exact absurd hv (by simpa using hq)
        · exact hv
      have hbare : valueText v = v := by
        unfold valueText
        rw [if_neg hq]
      rw [hbare, hvt]
      exact decodeValue_bare v (by simpa using hq)
  rw [hline]
  simp only [processTrimmed, if_neg hnc, if_neg hnh, hsplit, hkeq, hdec,
    if_neg hkne]

/-! ### The serialized text as a list of lines -/

/-- The key=value lines of one section (without their newlines). -/
def secLines (s : Sectn) : List Str := s.map (fun p => p.1 ++ '=' :: valueText p.2)

/-- The lines of one non-root section block: header, key lines, blank
separator; empty for skipped sections. -/
def blockLines (n : Str) (s : Sectn) : List Str :=
  if n = rootName ∨ s.length = 0 then []
  else ('[' :: (n ++ [']'])) :: (secLines s ++ [[]])

/-- The lines of all non-root section blocks. -/
def restLines : Ini → List Str
  | [] => []
  | (n, s) :: r => blockLines n s ++ restLines r

/-- The lines of the root block, from the root lookup result. -/
def rootLinesOf : Option Sectn → List Str
  | some s => if 0 < s.length then secLines s ++ [[]] else []
  | none => []

/-- The lines of the root block. -/
def rootLines (d : Ini) : List Str := rootLinesOf (findSec d rootName)

/-- All lines of the serialized document. -/
def docLines (d : Ini) : List Str := rootLines d ++ restLines d

/-- Insert all pairs of a section into the document, in order. -/
def insertAll (doc : Ini) (sec : Str) (s : Sectn) : Ini :=
  s.foldl (fun d p => setSecEntry sec p.1 p.2 d) doc

/-- The document produced by parsing all non-root blocks on top of acc. -/
def restFold (acc : Ini) : Ini → Ini
  | [] => acc
  | (n, s) :: r =>
    restFold (if n = rootName ∨ s.length = 0 then acc else insertAll acc n s) r

/-- The document produced by parsing the root block, from the root lookup
result. -/
def rootAccOf : Option Sectn → Ini
  | some s => if 0 < s.length then insertAll [] rootName s else []
  | none => []

/-- The document produced by parsing the root block. -/
def rootAcc (d : Ini) : Ini := rootAccOf (findSec d rootName)

/-- The document produced by parsing the full serialized output of d. -/
def parsedDoc (d : Ini) : Ini := restFold (rootAcc d) d

theorem writeSection_eq_joinNL (s : Sectn) : writeSection s = joinNL (secLines s) := by
  induction s with
  | nil => rfl
  | cons p r ih =>
    obtain ⟨k, v⟩ := p
    show keyLine k v ++ writeSection r =
      joinNL ((k ++ '=' :: valueText v) :: secLines r)
    rw [ih]
    show k ++ '=' :: (valueText v ++ ['\n']) ++ _ =
      (k ++ '=' :: valueText v) ++ '\n' :: joinNL (secLines r)
    simp

theorem writeRest_eq_joinNL (d : Ini) : writeRest d = joinNL (restLines d) := by
  induction d with
  | nil => rfl
  | cons p r ih =>
    obtain ⟨n, s⟩ := p
    show (if n = rootName ∨ s.length = 0 then [] else
        '[' :: (n ++ ']' :: '\n' :: (writeSection s ++ ['\n']))) ++ writeRest r =
      joinNL (blockLines n s ++ restLines r)
    rw [joinNL_append, ih]
    by_cases h : n = rootName ∨ s.length = 0
    · rw [if_pos h]
      unfold blockLines
      rw [if_pos h]
      rfl
    · rw [if_neg h]
      unfold blockLines
      rw [if_neg h]
      simp [joinNL, joinNL_append, writeSection_eq_joinNL]

theorem rootText_some (s : Sectn) :
    rootText (some s) = if 0 < s.length then writeSection s ++ ['\n'] else [] := rfl

theorem rootLinesOf_some (s : Sectn) :
    rootLinesOf (some s) = if 0 < s.length then secLines s ++ [[]] else [] := rfl

theorem writeTo_eq_joinNL (d : Ini) : writeTo d = joinNL (docLines d) := by
  unfold writeTo docLines rootLines
  rw [joinNL_append, ← writeRest_eq_joinNL]
  congr 1
  cases hfs : findSec d rootName with
  | none => rfl
  | some s =>
    rw [rootText_some, rootLinesOf_some]
    by_cases h : 0 < s.length
    · rw [if_pos h, if_pos h, joinNL_append, writeSection_eq_joinNL]
      rfl
    · rw [if_neg h, if_neg h]
      rfl

/-! ### The serializer's lines are newline-free and carriage-return safe -/

theorem findSec_mem (d : Ini) (n : Str) (s : Sectn) (h : findSec d n = some s) :
    (n, s) ∈ d := by
  induction d with
  | nil => simp [findSec] at h
  | cons p r ih =>
    obtain ⟨n0, s0⟩ := p
    unfold findSec at h
    by_cases he : n0 = n
    · rw [if_pos he] at h
      injection h with h2
      subst he
      subst h2
      exact List.mem_cons_self _ _
    · rw [if_neg he] at h
      exact List.mem_cons_of_mem _ (ih h)

theorem secLines_ok (s : Sectn) (hs : ∀ p ∈ s, wfKey p.1 ∧ wfVal p.2) :
    ∀ l ∈ secLines s, '\n' ∉ l ∧ dropCR l = l := by
  intro l hl
  unfold secLines at hl
  obtain ⟨p, hp, rfl⟩ := List.mem_map.mp hl
  obtain ⟨hk, hv⟩ := hs p hp
  exact ⟨keyLineBody_no_newline p.1 p.2 hk hv, keyLineBody_dropCR p.1 p.2 hv⟩

theorem headerLine_ok (n : Str) (h : wfName n) :
    '\n' ∉ ('[' :: (n ++ [']'])) ∧ dropCR ('[' :: (n ++ [']'])) = '[' :: (n ++ [']']) := by
  obtain ⟨hne, hnl, hw⟩ := h
  constructor
  · intro hm
    rcases List.mem_cons.mp hm with hm | hm
    · exact absurd hm (by decide)
    · rcases List.mem_append.mp hm with hm | hm
      · exact hnl hm
      · exact absurd (List.mem_singleton.mp hm) (by decide)
  · apply dropCR_eq_self
    intro hg
    rw [show ('[' : Char) :: (n ++ [']']) = ('[' :: n) ++ [']'] by simp,
      List.getLast?_concat] at hg
    injection hg with h2
    exact absurd h2 (by decide)

theorem blank_ok : '\n' ∉ ([] : Str) ∧ dropCR ([] : Str) = [] := ⟨by simp, rfl⟩

theorem restLines_ok (d : Ini) (h : ∀ p ∈ d, wfName p.1 ∧ wfSectn p.2) :
    ∀ l ∈ restLines d, '\n' ∉ l ∧ dropCR l = l := by
  induction d with
  | nil => intro l hl; simp [restLines] at hl
  | cons p r ih =>
    intro l hl
    obtain ⟨n, s⟩ := p
    unfold restLines at hl
    rcases List.mem_append.mp hl with hl | hl
    · unfold blockLines at hl
      by_cases hc : n = rootName ∨ s.length = 0
      · rw [if_pos hc] at hl
        simp at hl
      · rw [if_neg hc] at hl
        obtain ⟨hn, hs⟩ := h (n, s) (List.mem_cons_self _ _)
        rcases List.mem_cons.mp hl with hl | hl
        · subst hl
          exact headerLine_ok n hn
        · rcases List.mem_append.mp hl with hl | hl
          · exact secLines_ok s hs.2.2 l hl
          · have he : l = [] := List.mem_singleton.mp hl
            subst he
            exact blank_ok
    · exact ih (fun p hp => h p (List.mem_cons_of_mem _ hp)) l hl

theorem docLines_ok (d : Ini) (h : wfDoc d) :
    ∀ l ∈ docLines d, '\n' ∉ l ∧ dropCR l = l := by
  intro l hl
  unfold docLines at hl
  rcases List.mem_append.mp hl with hl | hl
  · unfold rootLines at hl
    cases hfs : findSec d rootName with
    | none => rw [hfs] at hl; simp [rootLinesOf] at hl
    | some s =>
      rw [hfs, rootLinesOf_some] at hl
      by_cases hlen : 0 < s.length
      · rw [if_pos hlen] at hl
        rcases List.mem_append.mp hl with hl | hl
        · have hmem := findSec_mem d rootName s hfs
          exact secLines_ok s ((h.2 _ hmem).2).2.2 l hl
        · have he : l = [] := List.mem_singleton.mp hl
          subst he
          exact blank_ok
      · rw [if_neg hlen] at hl
        simp at hl
  · exact restLines_ok d h.2 l hl

/-! ### Composition of the parse loop -/

theorem parseLinesSt_nil (doc : Ini) (sec : Str) (n : Nat) :
    parseLinesSt (doc, sec) n [] = ((doc, sec), none) := rfl

theorem parseLinesSt_cons (doc : Ini) (sec : Str) (n : Nat) (l : Str) (rest : List Str) :
    parseLinesSt (doc, sec) n (l :: rest) =
      match processLine doc sec l with
      | .error k => ((doc, sec), some ⟨n, k⟩)
      | .ok st' => parseLinesSt st' (n + 1) rest := rfl

theorem parseLinesSt_step_ok (doc : Ini) (sec : Str) (st' : Ini × Str) (n : Nat)
    (l : Str) (rest : List Str) (h : processLine doc sec l = .ok st') :
    parseLinesSt (doc, sec) n (l :: rest) = parseLinesSt st' (n + 1) rest := by
  rw [parseLinesSt_cons, h]

theorem parseLinesSt_step_err (doc : Ini) (sec : Str) (n : Nat) (l : Str)
    (rest : List Str) (e : ErrKind) (h : processLine doc sec l = .error e) :
    parseLinesSt (doc, sec) n (l :: rest) = ((doc, sec), some ⟨n, e⟩) := by
  rw [parseLinesSt_cons, h]

theorem parseLinesSt_append (ls1 ls2 : List Str) (st st1 : Ini × Str) (n : Nat)
    (h : parseLinesSt st n ls1 = (st1, none)) :
    parseLinesSt st n (ls1 ++ ls2) = parseLinesSt st1 (n + ls1.length) ls2 := by
  induction ls1 generalizing st n with
  | nil =>
    obtain ⟨doc, sec⟩ := st
    rw [parseLinesSt_nil] at h
    injection h with h1 h2
    subst h1
    simp
  | cons l ls ih =>
    obtain ⟨doc, sec⟩ := st
    cases hp : processLine doc sec l with
    | error k =>
      rw [parseLinesSt_step_err doc sec n l ls k hp] at h
      injection h with h1 h2
      simp at h2
    | ok st' =>
      rw [parseLinesSt_step_ok doc sec st' n l ls hp] at h
      rw [List.cons_append, parseLinesSt_step_ok doc sec st' n l (ls ++ ls2) hp,
        ih st' (n + 1) h]
      congr 1
      simp only [List.length_cons]
      omega

theorem parseLinesSt_secBlock (s : Sectn) (hs : ∀ p ∈ s, wfKey p.1 ∧ wfVal p.2) :
    ∀ doc sec n, parseLinesSt (doc, sec) n (secLines s ++ [[]]) =
      ((insertAll doc sec s, sec), none) := by
  induction s with
  | nil =>
    intro doc sec n
    show parseLinesSt (doc, sec) n [[]] = ((doc, sec), none)
    rw [parseLinesSt_step_ok doc sec (doc, sec) n [] []
      (processLine_blank doc sec [] rfl)]
    rfl
  | cons p r ih =>
    intro doc sec n
    obtain ⟨k, v⟩ := p
    obtain ⟨hk, hv⟩ := hs (k, v) (List.mem_cons_self _ _)
    show parseLinesSt (doc, sec) n
      ((k ++ '=' :: valueText v) :: (secLines r ++ [[]])) = _
    rw [parseLinesSt_step_ok doc sec (setSecEntry sec k v doc, sec) n _ _
      (processLine_keyLine doc sec k v hk hv)]
    rw [ih (fun p hp => hs p (List.mem_cons_of_mem _ hp)) _ _ _]
    rfl

theorem parseLinesSt_blockLines (n' : Str) (s : Sectn) (hn : wfName n')
    (hs : ∀ p ∈ s, wfKey p.1 ∧ wfVal p.2) (doc : Ini) (sec : Str) (m : Nat) :
    ∃ sec', parseLinesSt (doc, sec) m (blockLines n' s) =
      (((if n' = rootName ∨ s.length = 0 then doc else insertAll doc n' s), sec'),
        none) := by
  by_cases hc : n' = rootName ∨ s.length = 0
  · refine ⟨sec, ?_⟩
    unfold blockLines
    rw [if_pos hc, if_pos hc]
    rfl
  · refine ⟨n', ?_⟩
    unfold blockLines
    rw [if_neg hc, if_neg hc]
    rw [parseLinesSt_step_ok doc sec (doc, n') m _ _
      (processLine_header doc sec n' hn.1 hn.2.2)]
    exact parseLinesSt_secBlock s hs doc n' (m + 1)

theorem parseLinesSt_restLines (d : Ini) (h : ∀ p ∈ d, wfName p.1 ∧ wfSectn p.2) :
    ∀ acc sec m, ∃ sec', parseLinesSt (acc, sec) m (restLines d) =
      ((restFold acc d, sec'), none) := by
  induction d with
  | nil => intro acc sec m; exact ⟨sec, rfl⟩
  | cons p r ih =>
    intro acc sec m
    obtain ⟨n, s⟩ := p
    obtain ⟨hn, hs⟩ := h (n, s) (List.mem_cons_self _ _)
    obtain ⟨sec1, hb⟩ := parseLinesSt_blockLines n s hn hs.2.2 acc sec m
    show ∃ sec', parseLinesSt (acc, sec) m (blockLines n s ++ restLines r) = _
    rw [parseLinesSt_append _ _ _ _ _ hb]
    obtain ⟨sec2, hr⟩ := ih (fun p hp => h p (List.mem_cons_of_mem _ hp)) _ sec1
      (m + (blockLines n s).length)
    refine ⟨sec2, ?_⟩
    rw [hr]
    rfl

theorem ReadFrom_writeTo (d : Ini) (h : wfDoc d) :
    ReadFrom New (writeTo d) = (parsedDoc d, none) := by
  unfold ReadFrom
  rw [writeTo_eq_joinNL, goLines_joinNL _ (docLines_ok d h)]
  unfold docLines
  have hroot : ∃ secr, parseLinesSt (New, rootName) 1 (rootLines d) =
      ((rootAcc d, secr), none) := by
    unfold rootLines rootAcc
    cases hfs : findSec d rootName with
    | none => exact ⟨rootName, rfl⟩
    | some s =>
      rw [rootLinesOf_some, show rootAccOf (some s) =
        if 0 < s.length then insertAll [] rootName s else [] from rfl]
      by_cases hlen : 0 < s.length
      · rw [if_pos hlen, if_pos hlen]
        have hmem := findSec_mem d rootName s hfs
        exact ⟨rootName, parseLinesSt_secBlock s ((h.2 _ hmem).2).2.2 [] rootName 1⟩
      · rw [if_neg hlen, if_neg hlen]
        exact ⟨rootName, rfl⟩
  obtain ⟨secr, hroot⟩ := hroot
  rw [parseLinesSt_append _ _ _ _ _ hroot]
  obtain ⟨sec2, hrest⟩ := parseLinesSt_restLines d h.2 (rootAcc d) secr
    (1 + (rootLines d).length)
  rw [hrest]
  rfl

/-! ### Lookup characterization -/

/-- Raw two-level lookup (no case folding): Get is findVal after folding. -/
def findVal (doc : Ini) (sec k : Str) : Option Str :=
  match findSec doc sec with
  | none => none
  | some s => findKey s k

theorem Get_eq_findVal (doc : Ini) (sec k : Str) :
    Get doc sec k = findVal doc (goToLower sec) (goToLower k) := rfl

theorem findSec_cons (n0 : Str) (s0 : Sectn) (r : Ini) (sec : Str) :
    findSec ((n0, s0) :: r) sec = if n0 = sec then some s0 else findSec r sec := rfl

theorem findKey_cons (k0 v0 : Str) (r : Sectn) (k : Str) :
    findKey ((k0, v0) :: r) k = if k0 = k then some v0 else findKey r k := rfl

theorem setSecEntry_cons (sec k v n : Str) (s : Sectn) (rest : Ini) :
    setSecEntry sec k v ((n, s) :: rest) =
      if n = sec then (n, updAssoc k v s) :: rest
      else (n, s) :: setSecEntry sec k v rest := rfl

theorem findVal_nil (sec k : Str) : findVal [] sec k = none := rfl

theorem findVal_cons (n0 : Str) (s0 : Sectn) (r : Ini) (sec' k' : Str) :
    findVal ((n0, s0) :: r) sec' k' =
      if n0 = sec' then findKey s0 k' else findVal r sec' k' := by
  unfold findVal
  by_cases h : n0 = sec' <;> simp [findSec_cons, h]

theorem findKey_eq_none (s : Sectn) (k : Str) (h : k ∉ s.map Prod.fst) :
    findKey s k = none := by
  induction s with
  | nil => rfl
  | cons p r ih =>
    obtain ⟨k0, v0⟩ := p
    rw [findKey_cons, if_neg, ih]
    · intro hm
      refine h ?_
      rw [List.map_cons]
      exact List.mem_cons_of_mem _ hm
    · intro he
      refine h ?_
      rw [List.map_cons, he]
      exact List.mem_cons_self _ _

theorem findKey_updAssoc (s : Sectn) (k v k' : Str) :
    findKey (updAssoc k v s) k' = if k' = k then some v else findKey s k' := by
  induction s with
  | nil =>
    show findKey [(k, v)] k' = _
    rw [findKey_cons]
    by_cases h : k' = k
    · rw [if_pos h.symm, if_pos h]
    · rw [if_neg (fun he => h he.symm), if_neg h]
  | cons p r ih =>
    obtain ⟨k0, v0⟩ := p
    show findKey (if k0 = k then (k, v) :: r else (k0, v0) :: updAssoc k v r) k' = _
    by_cases h0 : k0 = k
    · rw [if_pos h0, findKey_cons, findKey_cons]
      by_cases h : k' = k
      · rw [if_pos h.symm, if_pos h]
      · rw [if_neg (fun he => h he.symm), if_neg h, if_neg]
        intro he
        exact h (by rw [← he, h0])
    · rw [if_neg h0, findKey_cons, findKey_cons, ih]
      by_cases h1 : k0 = k'
      · have hne : ¬(k' = k) := by
          intro he
          exact h0 (by rw [h1, he])
        rw [if_pos h1, if_neg hne, if_pos h1]
      · rw [if_neg h1, if_neg h1]

theorem findVal_setSecEntry (doc : Ini) (sec k v sec' k' : Str) :
    findVal (setSecEntry sec k v doc) sec' k' =
      if sec' = sec ∧ k' = k then some v else findVal doc sec' k' := by
  induction doc with
  | nil =>
    show findVal [(sec, [(k, v)])] sec' k' = _
    rw [findVal_cons]
    by_cases h1 : sec' = sec
    · rw [if_pos h1.symm, findKey_cons]
      by_cases h2 : k' = k
      · rw [if_pos h2.symm, if_pos ⟨h1, h2⟩]
      · rw [if_neg (fun he => h2 he.symm), if_neg (fun hc => h2 hc.2)]
        rfl
    · rw [if_neg (fun he => h1 he.symm), if_neg (fun hc => h1 hc.1)]
  | cons p r ih =>
    obtain ⟨n0, s0⟩ := p
    rw [setSecEntry_cons]
    by_cases h0 : n0 = sec
    · rw [if_pos h0, findVal_cons, findVal_cons]
      by_cases h1 : n0 = sec'
      · rw [if_pos h1, if_pos h1, findKey_updAssoc]
        have hss : sec' = sec := by rw [← h1, h0]
        by_cases h2 : k' = k
        · rw [if_pos h2, if_pos ⟨hss, h2⟩]
        · rw [if_neg h2, if_neg (fun hc => h2 hc.2)]
      · rw [if_neg h1, if_neg h1]
        have hns : ¬(sec' = sec ∧ k' = k) := by
          intro hc
          exact h1 (by rw [h0, ← hc.1])
        rw [if_neg hns]
    · rw [if_neg h0, findVal_cons, findVal_cons]
      by_cases h1 : n0 = sec'
      · rw [if_pos h1, if_pos h1]
        have hns : ¬(sec' = sec ∧ k' = k) := by
          intro hc
          exact h0 (by rw [h1, hc.1])
        rw [if_neg hns]
      · rw [if_neg h1, if_neg h1, ih]

theorem insertAll_cons (doc : Ini) (sec k0 v0 : Str) (r : Sectn) :
    insertAll doc sec ((k0, v0) :: r) = insertAll (setSecEntry sec k0 v0 doc) sec r := rfl

theorem findVal_insertAll (s : Sectn) (hnd : (s.map Prod.fst).Nodup) :
    ∀ doc sec sec' k', findVal (insertAll doc sec s) sec' k' =
      if sec' = sec ∧ k' ∈ s.map Prod.fst then findKey s k'
      else findVal doc sec' k' := by
  induction s with
  | nil =>
    intro doc sec sec' k'
    rw [if_neg (fun hc => by simpa using hc.2)]
    rfl
  | cons p r ih =>
    intro doc sec sec' k'
    obtain ⟨k0, v0⟩ := p
    have hnd2 : (r.map Prod.fst).Nodup := by
      simp only [List.map_cons, List.nodup_cons] at hnd
      exact hnd.2
    have hk0 : k0 ∉ r.map Prod.fst := by
      simp only [List.map_cons, List.nodup_cons] at hnd
      exact hnd.1
    rw [insertAll_cons, ih hnd2 _ _ _ _]
    by_cases hm : k' ∈ r.map Prod.fst
    · by_cases hs : sec' = sec
      · rw [if_pos ⟨hs, hm⟩, if_pos ⟨hs, by simp [hm]⟩, findKey_cons, if_neg]
        intro he
        exact hk0 (he ▸ hm)
      · rw [if_neg (fun hc => hs hc.1), if_neg (fun hc => hs hc.1),
          findVal_setSecEntry, if_neg (fun hc => hs hc.1)]
    · rw [if_neg (fun hc => hm hc.2), findVal_setSecEntry]
      by_cases hs : sec' = sec
      · by_cases hk : k' = k0
        · rw [if_pos ⟨hs, hk⟩, if_pos ⟨hs, by simp [hk]⟩, findKey_cons, if_pos hk.symm]
        · rw [if_neg (fun hc => hk hc.2), if_neg]
          intro hc
          have hcm : k' = k0 ∨ k' ∈ r.map Prod.fst := by
            have hx := hc.2
            rw [List.map_cons] at hx
            exact List.mem_cons.mp hx
          rcases hcm with he | he
          · exact hk he
          · exact hm he
      · rw [if_neg (fun hc => hs hc.1), if_neg (fun hc => hs hc.1)]

theorem restFold_cons (acc : Ini) (n : Str) (s : Sectn) (r : Ini) :
    restFold acc ((n, s) :: r) =
      restFold (if n = rootName ∨ s.length = 0 then acc else insertAll acc n s) r := rfl

theorem findSec_eq_none (d : Ini) (sec : Str) (h : sec ∉ d.map Prod.fst) :
    findSec d sec = none := by
  induction d with
  | nil => rfl
  | cons p r ih =>
    obtain ⟨n0, s0⟩ := p
    rw [findSec_cons, if_neg, ih]
    · intro hm
      refine h ?_
      rw [List.map_cons]
      exact List.mem_cons_of_mem _ hm
    · intro he
      refine h ?_
      rw [List.map_cons, he]
      exact List.mem_cons_self _ _

theorem findVal_restFold_skip (d : Ini) (sec' k' : Str)
    (hnames : (d.map Prod.fst).Nodup)
    (hkeys : ∀ p ∈ d, (p.2.map Prod.fst).Nodup)
    (hcond : sec' = rootName ∨ findSec d sec' = none ∨
      (∃ s, findSec d sec' = some s ∧ k' ∉ s.map Prod.fst)) :
    ∀ acc, findVal (restFold acc d) sec' k' = findVal acc sec' k' := by
  induction d with
  | nil => intro acc; rfl
  | cons p r ih =>
    intro acc
    obtain ⟨n, s0⟩ := p
    have hnames2 : (r.map Prod.fst).Nodup := by
      simp only [List.map_cons, List.nodup_cons] at hnames
      exact hnames.2
    have hn0 : n ∉ r.map Prod.fst := by
      simp only [List.map_cons, List.nodup_cons] at hnames
      exact hnames.1
    have hkeys2 : ∀ p ∈ r, (p.2.map Prod.fst).Nodup :=
      fun p hp => hkeys p (List.mem_cons_of_mem _ hp)
    have hcond2 : sec' = rootName ∨ findSec r sec' = none ∨
        (∃ s, findSec r sec' = some s ∧ k' ∉ s.map Prod.fst) := by
      rcases hcond with hc | hc | hc
      · exact Or.inl hc
      · rw [findSec_cons] at hc
        by_cases hns : n = sec'
        · rw [if_pos hns] at hc
          exact absurd hc (by simp)
        · rw [if_neg hns] at hc
          exact Or.inr (Or.inl hc)
      · obtain ⟨s, hcs, hck⟩ := hc
        rw [findSec_cons] at hcs
        by_cases hns : n = sec'
        · refine Or.inr (Or.inl ?_)
          apply findSec_eq_none
          rw [← hns]
          exact hn0
        · rw [if_neg hns] at hcs
          exact Or.inr (Or.inr ⟨s, hcs, hck⟩)
    rw [restFold_cons, ih hnames2 hkeys2 hcond2 _]
    by_cases hc : n = rootName ∨ s0.length = 0
    · rw [if_pos hc]
    · rw [if_neg hc,
        findVal_insertAll s0 (hkeys (n, s0) (List.mem_cons_self _ _)) acc n sec' k',
        if_neg]
      intro hx
      rcases hcond with hco | hco | hco
      · exact hc (Or.inl (by rw [← hx.1, hco]))
      · rw [findSec_cons] at hco
        by_cases hns : n = sec'
        · rw [if_pos hns] at hco
          exact absurd hco (by simp)
        · exact hns hx.1.symm
      · obtain ⟨s, hcs, hck⟩ := hco
        rw [findSec_cons] at hcs
        by_cases hns : n = sec'
        · rw [if_pos hns] at hcs
          injection hcs with hcs
          subst hcs
          exact hck hx.2
        · exact hns hx.1.symm

theorem findVal_restFold_found (d : Ini) (sec' k' : Str) (s : Sectn)
    (hnames : (d.map Prod.fst).Nodup)
    (hkeys : ∀ p ∈ d, (p.2.map Prod.fst).Nodup)
    (hfs : findSec d sec' = some s) (hroot : sec' ≠ rootName)
    (hmem : k' ∈ s.map Prod.fst) :
    ∀ acc, findVal (restFold acc d) sec' k' = findKey s k' := by
  induction d with
  | nil => intro acc; simp [findSec] at hfs
  | cons p r ih =>
    intro acc
    obtain ⟨n, s0⟩ := p
    have hnames2 : (r.map Prod.fst).Nodup := by
      simp only [List.map_cons, List.nodup_cons] at hnames
      exact hnames.2
    have hn0 : n ∉ r.map Prod.fst := by
      simp only [List.map_cons, List.nodup_cons] at hnames
      exact hnames.1
    have hkeys2 : ∀ p ∈ r, (p.2.map Prod.fst).Nodup :=
      fun p hp => hkeys p (List.mem_cons_of_mem _ hp)
    rw [findSec_cons] at hfs
    by_cases hns : n = sec'
    · rw [if_pos hns] at hfs
      injection hfs with hfs
      subst hfs
      have hnr : findSec r sec' = none := by
        apply findSec_eq_none
        rw [← hns]
        exact hn0
      rw [restFold_cons,
        findVal_restFold_skip r sec' k' hnames2 hkeys2 (Or.inr (Or.inl hnr)) _]
      have hcne : ¬(n = rootName ∨ s0.length = 0) := by
        rintro (hcc | hcc)
        · exact hroot (by rw [← hns, hcc])
        · have hz : s0 = [] := List.length_eq_zero.mp hcc
          subst hz
          simp at hmem
      rw [if_neg hcne,
        findVal_insertAll s0 (hkeys (n, s0) (List.mem_cons_self _ _)) acc n sec' k',
        if_pos ⟨hns.symm, hmem⟩]
    · rw [if_neg hns] at hfs
      rw [restFold_cons]
      exact ih hnames2 hkeys2 hfs _

theorem findVal_rootAcc_other (d : Ini) (sec' k' : Str)
    (hkeys : ∀ p ∈ d, (p.2.map Prod.fst).Nodup)
    (hne : sec' ≠ rootName) :
    findVal (rootAcc d) sec' k' = none := by
  unfold rootAcc
  cases hfr : findSec d rootName with
  | none => rfl
  | some s0 =>
    rw [show rootAccOf (some s0) =
      if 0 < s0.length then insertAll [] rootName s0 else [] from rfl]
    by_cases hlen : 0 < s0.length
    · rw [if_pos hlen,
        findVal_insertAll s0 (hkeys _ (findSec_mem d rootName s0 hfr)) [] rootName sec' k',
        if_neg (fun hc => hne hc.1)]
      rfl
    · rw [if_neg hlen]
      rfl

theorem findVal_parsedDoc (d : Ini) (h : wfDoc d) (sec' k' : Str) :
    findVal (parsedDoc d) sec' k' = findVal d sec' k' := by
  obtain ⟨hnames, hwf⟩ := h
  have hkeys : ∀ p ∈ d, (p.2.map Prod.fst).Nodup := fun p hp => ((hwf p hp).2).2.1
  unfold parsedDoc
  cases hfs : findSec d sec' with
  | none =>
    rw [findVal_restFold_skip d sec' k' hnames hkeys (Or.inr (Or.inl hfs)) _]
    have hrhs : findVal d sec' k' = none := by unfold findVal; rw [hfs]
    rw [hrhs]
    by_cases hroot : sec' = rootName
    · subst hroot
      unfold rootAcc
      rw [hfs]
      rfl
    · exact findVal_rootAcc_other d sec' k' hkeys hroot
  | some s =>
    have hrhs : findVal d sec' k' = findKey s k' := by unfold findVal; rw [hfs]
    rw [hrhs]
    by_cases hroot : sec' = rootName
    · subst hroot
      rw [findVal_restFold_skip d rootName k' hnames hkeys (Or.inl rfl) _]
      unfold rootAcc
      rw [hfs, show rootAccOf (some s) =
        if 0 < s.length then insertAll [] rootName s else [] from rfl]
      have hsne : s ≠ [] := ((hwf _ (findSec_mem d rootName s hfs)).2).1
      have hlen : 0 < s.length := List.length_pos.mpr hsne
      rw [if_pos hlen,
        findVal_insertAll s (hkeys _ (findSec_mem d rootName s hfs)) [] rootName rootName k']
      by_cases hm : k' ∈ s.map Prod.fst
      · rw [if_pos ⟨rfl, hm⟩]
      · rw [if_neg (fun hc => hm hc.2), findVal_nil, findKey_eq_none s k' hm]
    · by_cases hm : k' ∈ s.map Prod.fst
      · exact findVal_restFold_found d sec' k' s hnames hkeys hfs hroot hm _
      · rw [findVal_restFold_skip d sec' k' hnames hkeys
          (Or.inr (Or.inr ⟨s, hfs, hm⟩)) _,
          findVal_rootAcc_other d sec' k' hkeys hroot, findKey_eq_none s k' hm]

/-! ### The non-empty-section invariant -/

/-- Every section entry present in the document has at least one key. -/
abbrev invNE (d : Ini) : Prop := ∀ p ∈ d, p.2 ≠ []

theorem updAssoc_ne_nil (k v : Str) (s : Sectn) : updAssoc k v s ≠ [] := by
  cases s with
  | nil => simp [updAssoc]
  | cons p r =>
    obtain ⟨k0, v0⟩ := p
    unfold updAssoc
    by_cases h : k0 = k
    · rw [if_pos h]
      simp
    · rw [if_neg h]
      simp

theorem invNE_setSecEntry (d : Ini) (sec k v : Str) (h : invNE d) :
    invNE (setSecEntry sec k v d) := by
  induction d with
  | nil =>
    intro p hp
    have he := List.mem_singleton.mp hp
    rw [he]
    simp
  | cons q r ih =>
    obtain ⟨n0, s0⟩ := q
    rw [setSecEntry_cons]
    by_cases he : n0 = sec
    · rw [if_pos he]
      intro p hp
      rcases List.mem_cons.mp hp with rfl | hp
      · exact updAssoc_ne_nil k v s0
      · exact h p (List.mem_cons_of_mem _ hp)
    · rw [if_neg he]
      intro p hp
      rcases List.mem_cons.mp hp with rfl | hp
      · exact h (n0, s0) (List.mem_cons_self _ _)
      · exact ih (fun q hq => h q (List.mem_cons_of_mem _ hq)) p hp

theorem processLine_ok_doc (doc : Ini) (sec l : Str) (doc' : Ini) (sec' : Str)
    (h : processLine doc sec l = .ok (doc', sec')) :
    doc' = doc ∨ ∃ k v, doc' = setSecEntry sec k v doc := by
  unfold processLine processTrimmed at h
  repeat' split at h
  all_goals first
    | (injection h with h2; injection h2 with ha hb; exact Or.inl ha.symm)
    | (exact Except.noConfusion h)
    | (injection h with h2; injection h2 with ha hb; exact Or.inr ⟨_, _, ha.symm⟩)

theorem parseLinesSt_fst_invNE (ls : List Str) :
    ∀ st n, invNE st.1 → invNE (parseLinesSt st n ls).1.1 := by
  induction ls with
  | nil =>
    intro st n h
    obtain ⟨doc, sec⟩ := st
    exact h
  | cons l ls ih =>
    intro st n h
    obtain ⟨doc, sec⟩ := st
    cases hp : processLine doc sec l with
    | error k =>
      rw [parseLinesSt_step_err doc sec n l ls k hp]
      exact h
    | ok st' =>
      rw [parseLinesSt_step_ok doc sec st' n l ls hp]
      obtain ⟨d2, s2⟩ := st'
      refine ih (d2, s2) (n + 1) ?_
      rcases processLine_ok_doc doc sec l d2 s2 hp with he | ⟨k, v, he⟩
      · rw [he]
        exact h
      · rw [he]
        exact invNE_setSecEntry doc sec k v h

theorem ReadFrom_invNE (doc : Ini) (input : Str) (h : invNE doc) :
    invNE (ReadFrom doc input).1 := by
  unfold ReadFrom
  exact parseLinesSt_fst_invNE (goLines input) (doc, rootName) 1 h

theorem invNE_nil : invNE [] := by
  intro p hp
  simp at hp

/-! ### HasSection agrees with Get on invariant-respecting documents -/

theorem findVal_of_findSec (d : Ini) (sec : Str) (s : Sectn) (k : Str)
    (h : findSec d sec = some s) : findVal d sec k = findKey s k := by
  unfold findVal
  rw [h]

theorem findSec_isSome_iff (d : Ini) (sec : Str) (hd : invNE d) :
    (findSec d sec).isSome ↔ ∃ k, (findVal d sec k).isSome := by
  constructor
  · intro hs
    cases hfs : findSec d sec with
    | none => rw [hfs] at hs; simp at hs
    | some s =>
      have hne : s ≠ [] := hd (sec, s) (findSec_mem d sec s hfs)
      obtain ⟨⟨k0, v0⟩, t, rfl⟩ : ∃ p t, s = p :: t := by
        cases s with
        | nil => exact absurd rfl hne
        | cons p t => exact ⟨p, t, rfl⟩
      refine ⟨k0, ?_⟩
      rw [findVal_of_findSec d sec _ k0 hfs, findKey_cons, if_pos rfl]
      rfl
  · rintro ⟨k, hk⟩
    unfold findVal at hk
    cases hfs : findSec d sec with
    | none => rw [hfs] at hk; simp at hk
    | some s => simp [hfs]

theorem hasSection_ext (d1 d2 : Ini) (h1 : invNE d1) (h2 : invNE d2)
    (h : ∀ sec k, findVal d1 sec k = findVal d2 sec k) (sec : Str) :
    (findSec d1 sec).isSome = (findSec d2 sec).isSome := by
  have e1 := findSec_isSome_iff d1 sec h1
  have e2 := findSec_isSome_iff d2 sec h2
  by_cases ha : (findSec d1 sec).isSome
  · have hex2 : ∃ k, (findVal d2 sec k).isSome := by
      obtain ⟨k, hk⟩ := e1.mp ha
      rw [h sec k] at hk
      exact ⟨k, hk⟩
    rw [ha, e2.mpr hex2]
  · have hb : ¬(findSec d2 sec).isSome = true := by
      intro hb
      obtain ⟨k, hk⟩ := e2.mp hb
      rw [← h sec k] at hk
      exact ha (e1.mpr ⟨k, hk⟩)
    rw [Bool.not_eq_true] at ha hb
    rw [ha, hb]

theorem wfDoc_invNE (d : Ini) (h : wfDoc d) : invNE d :=
  fun p hp => ((h.2 p hp).2).1

/-! ### Claim C1: round-trip fidelity -/

/-- C1, counterexample to the claim as stated: the claim admits every value
string whatsoever, but a value consisting of a vertical tab (U+000B) is
whitespace for strings.TrimSpace while not being in the serializer's
quoting-trigger set, so it is written bare and the parser trims it away:
the document built by Set("root", "a", "\u000B") satisfies all of the
claim's name conditions, WriteTo-then-ReadFrom succeeds, yet Get returns
the empty value instead of the original one. -/
theorem claim_C1_counterexample :
    (ReadFrom New (writeTo (Set New rootName ['a'] ['\u000B']))).2 = none ∧
    Get (ReadFrom New (writeTo (Set New rootName ['a'] ['\u000B']))).1
      rootName ['a'] = some [] ∧
    Get (Set New rootName ['a'] ['\u000B']) rootName ['a'] = some ['\u000B'] ∧
    Get (ReadFrom New (writeTo (Set New rootName ['a'] ['\u000B']))).1
      rootName ['a'] ≠
      Get (Set New rootName ['a'] ['\u000B']) rootName ['a'] := by
  refine ⟨rfl, rfl, rfl, ?_⟩
  decide

/-- C1 (amended): for every Document whose section names and keys are
non-empty, contain no newline, equal their whitespace-trimmed lower-cased
forms, whose keys contain no '=' and do not start with ';' or '#', whose
sections are non-empty with unique names and keys, and for every value that
either contains one of the serializer's quoting-trigger characters
(space, tab, newline, carriage return, double or single quote, '=', ';',
'#', '[', ']') or is unchanged by whitespace trimming, parsing the byte
output of WriteTo into a fresh empty Document with ReadFrom succeeds and
yields a Document equal to the original: the same set of sections, the
same keys per section, and character-for-character identical values.
(The amendment excludes only values that begin or end with a whitespace
character outside the quoting-trigger set, such as vertical tab, form feed
or U+00A0, which the claim as stated wrongly included.) -/
theorem claim_C1_roundtrip_amended (d : Ini) (h : wfDoc d) :
    (ReadFrom New (writeTo d)).2 = none ∧
    (∀ sec k, Get (ReadFrom New (writeTo d)).1 sec k = Get d sec k) ∧
    (∀ sec, HasSection (ReadFrom New (writeTo d)).1 sec = HasSection d sec) := by
  have hrw := ReadFrom_writeTo d h
  have hfst : (ReadFrom New (writeTo d)).1 = parsedDoc d := by rw [hrw]
  have hsnd : (ReadFrom New (writeTo d)).2 = none := by rw [hrw]
  refine ⟨hsnd, ?_, ?_⟩
  · intro sec k
    rw [hfst, Get_eq_findVal, Get_eq_findVal, findVal_parsedDoc d h]
  · intro sec
    rw [hfst]
    unfold HasSection
    apply hasSection_ext
    · have hin := ReadFrom_invNE New (writeTo d) invNE_nil
      rwa [hfst] at hin
    · exact wfDoc_invNE d h
    · exact fun sec k => findVal_parsedDoc d h sec k

/-- The concrete document used to witness the amended round-trip theorem:
a root section and one ordinary section whose values include a space-bearing
string and a bare backslash. -/
def docW : Ini :=
  [(rootName, [(['a'], ['b', ' ', 'c'])]),
   (['s', '1'], [(['k'], ['v']), (['k', '2'], ['\\', 'x'])])]

/-- Witness for C1 (amended): the hypotheses hold for the concrete document
docW and the round-trip theorem applies to it. -/
theorem claim_C1_roundtrip_amended_witness :
    wfDoc docW ∧
    ((ReadFrom New (writeTo docW)).2 = none ∧
     (∀ sec k, Get (ReadFrom New (writeTo docW)).1 sec k = Get docW sec k) ∧
     (∀ sec, HasSection (ReadFrom New (writeTo docW)).1 sec = HasSection docW sec)) :=
  ⟨by decide, claim_C1_roundtrip_amended docW (by decide)⟩

/-! ### Claim C2: serializer quoting rule -/

/-- The quoting-trigger set as worded in the claim/spec, which includes the
backslash; the source's set (quoteChars) does not contain the backslash. -/
def specQuoteTriggers : List Char :=
  [' ', '\t', '\n', '\r', '"', '\'', '\\', '=', ';', '#', '[', ']']

/-- The quoting-trigger set of the amended claim: the claim's set without
the backslash (identical to the source's ContainsAny set). -/
def specQuoteTriggersAmended : List Char :=
  [' ', '\t', '\n', '\r', '"', '\'', '=', ';', '#', '[', ']']

/-- Per-character escaping exactly as worded in the claim: double-quote to
backslash double-quote, backslash doubled, newline to backslash-n, carriage
return to backslash-r, tab to backslash-t, everything else unchanged. -/
def specEscapeChar (c : Char) : Str :=
  if c = '"' then ['\\', '"']
  else if c = '\\' then ['\\', '\\']
  else if c = '\n' then ['\\', 'n']
  else if c = '\r' then ['\\', 'r']
  else if c = '\t' then ['\\', 't']
  else [c]

/-- Escaping of a whole value as worded in the claim: character-level
concatenation of the per-character escapes. -/
def specEscape (v : Str) : Str := v.foldr (fun c acc => specEscapeChar c ++ acc) []

theorem escapeValue_eq_specEscape (v : Str) : escapeValue v = specEscape v := by
  induction v with
  | nil => rfl
  | cons c cs ih =>
    show escChar c ++ escapeValue cs = specEscapeChar c ++ specEscape cs
    rw [ih]
    rfl

/-- C2, counterexample to the claim as stated: the claim (like the spec)
lists the backslash among the quoting-trigger characters, but the code's
ContainsAny set has no backslash, so a value consisting of a single
backslash (which contains none of the other listed characters) is written
bare rather than wrapped in double quotes with the backslash doubled. -/
theorem claim_C2_counterexample :
    '\\' ∈ specQuoteTriggers ∧
    writeSection [(['k'], ['\\'])] = ['k', '=', '\\', '\n'] ∧
    writeSection [(['k'], ['\\'])] ≠
      ['k', '='] ++ '"' :: (specEscape ['\\'] ++ ['"']) ++ ['\n'] := by
  refine ⟨by decide, rfl, by decide⟩

/-- C2 (amended): for every key-value pair emitted by the serializer, if
the value contains any of space, tab, newline, carriage-return,
double-quote, single-quote, '=', ';', '#', '[' or ']' — but, contrary to
the original claim, not the backslash, which triggers no quoting by
itself — then the value is written wrapped in double quotes with
character-level escaping (double-quote, backslash, newline, carriage
return and tab escaped, every other character unchanged); otherwise, and
in particular for a value containing only backslashes, the value is
written bare with no escaping. -/
theorem claim_C2_quoting_amended :
    (∀ k v s, writeSection ((k, v) :: s) =
      k ++ '=' :: ((if v.any (fun c => decide (c ∈ specQuoteTriggersAmended))
          then '"' :: (specEscape v ++ ['"']) else v) ++ '\n' :: writeSection s)) ∧
    valueText ['\\'] = ['\\'] := by
  constructor
  · intro k v s
    have hset : (fun c => decide (c ∈ specQuoteTriggersAmended)) =
        (fun c => decide (c ∈ quoteChars)) := rfl
    show keyLine k v ++ writeSection s = _
    unfold keyLine valueText needsQuotes
    rw [escapeValue_eq_specEscape, hset]
    by_cases hq : v.any (fun c => decide (c ∈ quoteChars))
    · rw [if_pos hq]
      simp
    · rw [if_neg hq]
      simp
  · rfl

/-! ### Claim C3: escape decoding -/

/-- One escaped pair, as worded in the claim: backslash-n, -r, -t are the
control characters, a doubled backslash is one backslash, a backslash
before a quote character yields the bare quote only when it matches the
enclosing quote and is otherwise kept literally, and any other pair passes
through unchanged. -/
def specEscDecodeChar (q c2 : Char) : Str :=
  if c2 = 'n' then ['\n']
  else if c2 = 'r' then ['\r']
  else if c2 = 't' then ['\t']
  else if c2 = '\\' then ['\\']
  else if c2 = '"' ∨ c2 = '\'' then (if c2 = q then [c2] else ['\\', c2])
  else ['\\', c2]

/-- The claim's decoder for the inner text: scan for backslash pairs,
preserving a lone trailing backslash. -/
def specUnesc (q : Char) : Str → Str
  | [] => []
  | c :: rest =>
    if c = '\\' then
      match rest with
      | [] => ['\\']
      | c2 :: rest2 => specEscDecodeChar q c2 ++ specUnesc q rest2
    else c :: specUnesc q rest

/-- The claim's treatment of a trimmed value: when it has length at least 2
and starts and ends with the same quote character, strip the quotes and
decode the inner text; otherwise keep it verbatim. -/
def specDecode (v : Str) : Str :=
  match v with
  | [] => []
  | c :: cs =>
    if 2 ≤ (c :: cs).length ∧ (c = '"' ∨ c = '\'') ∧ (c :: cs).getLast? = some c then
      specUnesc c cs.dropLast
    else c :: cs

theorem specUnesc_cons (q c : Char) (rest : Str) :
    specUnesc q (c :: rest) =
      if c = '\\' then
        (match rest with
         | [] => ['\\']
         | c2 :: rest2 => specEscDecodeChar q c2 ++ specUnesc q rest2)
      else c :: specUnesc q rest := by
  by_cases h : c = '\\'
  · subst h
    cases rest <;> simp [specUnesc]
  · rw [specUnesc.eq_def]
    simp [h]

theorem specDecode_cons (c : Char) (cs : Str) :
    specDecode (c :: cs) =
      if 2 ≤ (c :: cs).length ∧ (c = '"' ∨ c = '\'') ∧ (c :: cs).getLast? = some c then
        specUnesc c cs.dropLast
      else c :: cs := rfl

theorem specUnesc_no_backslash (q : Char) (l : Str) (h : '\\' ∉ l) :
    specUnesc q l = l := by
  induction l with
  | nil => rfl
  | cons c rest ih =>
    have hc : c ≠ '\\' := fun he => h (he ▸ List.mem_cons_self c rest)
    rw [specUnesc_cons, if_neg hc, ih (fun hm => h (List.mem_cons_of_mem _ hm))]

theorem unesc_eq_specUnesc (q : Char) (l : Str) :
    unesc q false l = specUnesc q l ∧
    unesc q true l = (match l with
      | [] => ['\\']
      | c :: rest => specEscDecodeChar q c ++ specUnesc q rest) := by
  induction l with
  | nil => exact ⟨rfl, rfl⟩
  | cons c rest ih =>
    obtain ⟨ih1, ih2⟩ := ih
    refine ⟨?_, ?_⟩
    · show (if c = '\\' then unesc q true rest else c :: unesc q false rest) =
        specUnesc q (c :: rest)
      by_cases h : c = '\\'
      · subst h
        rw [if_pos rfl, ih2]
        show _ = specUnesc q ('\\' :: rest)
        cases rest with
        | nil => rfl
        | cons c2 r2 => rfl
      · rw [if_neg h, ih1, specUnesc_cons, if_neg h]
    · have he : unesc q true (c :: rest) = specEscDecodeChar q c ++ unesc q false rest := rfl
      rw [he, ih1]

/-- C3 (confirmed): the parser's quote stripping and escape decoding agrees,
on every trimmed value, with the claim's description: a value of length at
least 2 enclosed in a matching pair of double or single quotes is stripped
and its inner text decoded (backslash-n/r/t to control characters, doubled
backslash to one backslash, backslash-quote to the bare quote only for the
enclosing quote and kept literal otherwise, any other backslash pair passed
through unchanged, a lone trailing backslash preserved); any other value is
stored verbatim with no escape decoding. -/
theorem claim_C3_escape_decoding : ∀ v, decodeValue v = specDecode v := by
  intro v
  cases v with
  | nil => rfl
  | cons c cs =>
    rw [decodeValue_cons, specDecode_cons]
    by_cases h : 2 ≤ (c :: cs).length ∧
        ((c = '"' ∧ (c :: cs).getLast? = some '"') ∨
         (c = '\'' ∧ (c :: cs).getLast? = some '\''))
    · have h' : 2 ≤ (c :: cs).length ∧ (c = '"' ∨ c = '\'') ∧
          (c :: cs).getLast? = some c := by
        obtain ⟨h1, h2⟩ := h
        rcases h2 with ⟨hq, hl⟩ | ⟨hq, hl⟩
        · exact ⟨h1, Or.inl hq, by subst hq; exact hl⟩
        · exact ⟨h1, Or.inr hq, by subst hq; exact hl⟩
      rw [if_pos h, if_pos h']
      by_cases hb : '\\' ∈ cs.dropLast
      · rw [if_pos hb]
        exact (unesc_eq_specUnesc c cs.dropLast).1
      · rw [if_neg hb]
        exact (specUnesc_no_backslash c cs.dropLast hb).symm
    · rw [if_neg h, if_neg]
      intro hc
      obtain ⟨h1, hq, hl⟩ := hc
      refine h ⟨h1, ?_⟩
      rcases hq with hq | hq
      · exact Or.inl ⟨hq, by subst hq; exact hl⟩
      · exact Or.inr ⟨hq, by subst hq; exact hl⟩

/-! ### Claim C4: the non-empty-section invariant under Set / Unset / ReadFrom -/

theorem Unset_eq_none (doc : Ini) (sec0 k0 : Str)
    (h : findSec doc (goToLower sec0) = none) : Unset doc sec0 k0 = doc := by
  unfold Unset
  rw [h]

theorem Unset_eq_some (doc : Ini) (sec0 k0 : Str) (s : Sectn)
    (h : findSec doc (goToLower sec0) = some s) :
    Unset doc sec0 k0 =
      if (delKey (goToLower k0) s).length = 0 then delSec (goToLower sec0) doc
      else replaceSec (goToLower sec0) (delKey (goToLower k0) s) doc := by
  unfold Unset
  rw [h]

theorem invNE_delSec (d : Ini) (sec : Str) (h : invNE d) : invNE (delSec sec d) := by
  induction d with
  | nil => exact h
  | cons p r ih =>
    obtain ⟨n0, s0⟩ := p
    show invNE (if n0 = sec then r else (n0, s0) :: delSec sec r)
    by_cases he : n0 = sec
    · rw [if_pos he]
      exact fun q hq => h q (List.mem_cons_of_mem _ hq)
    · rw [if_neg he]
      intro q hq
      rcases List.mem_cons.mp hq with rfl | hq
      · exact h (n0, s0) (List.mem_cons_self _ _)
      · exact ih (fun q hq => h q (List.mem_cons_of_mem _ hq)) q hq

theorem invNE_replaceSec (d : Ini) (sec : Str) (s' : Sectn) (h : invNE d)
    (hs : s' ≠ []) : invNE (replaceSec sec s' d) := by
  induction d with
  | nil => exact h
  | cons p r ih =>
    obtain ⟨n0, s0⟩ := p
    show invNE (if n0 = sec then (n0, s') :: r else (n0, s0) :: replaceSec sec s' r)
    by_cases he : n0 = sec
    · rw [if_pos he]
      intro q hq
      rcases List.mem_cons.mp hq with rfl | hq
      · exact hs
      · exact h q (List.mem_cons_of_mem _ hq)
    · rw [if_neg he]
      intro q hq
      rcases List.mem_cons.mp hq with rfl | hq
      · exact h (n0, s0) (List.mem_cons_self _ _)
      · exact ih (fun q hq => h q (List.mem_cons_of_mem _ hq)) q hq

theorem invNE_Unset (d : Ini) (sec k : Str) (h : invNE d) : invNE (Unset d sec k) := by
  cases hfs : findSec d (goToLower sec) with
  | none =>
    rw [Unset_eq_none d sec k hfs]
    exact h
  | some s =>
    rw [Unset_eq_some d sec k s hfs]
    by_cases hl : (delKey (goToLower k) s).length = 0
    · rw [if_pos hl]
      exact invNE_delSec d (goToLower sec) h
    · rw [if_neg hl]
      exact invNE_replaceSec d (goToLower sec) _ h
        (fun he => hl (by rw [he]; rfl))

theorem invNE_Set (d : Ini) (sec k v : Str) (h : invNE d) : invNE (Set d sec k v) :=
  invNE_setSecEntry d (goToLower sec) (goToLower k) v h

/-- A mutation of the document through its public interface. -/
inductive Op where
  | opSet (sec k v : Str) : Op
  | opUnset (sec k : Str) : Op
  | opLoad (input : Str) : Op

/-- Apply one operation; opLoad keeps the merged document even on error. -/
def applyOp (d : Ini) : Op → Ini
  | .opSet sec k v => Set d sec k v
  | .opUnset sec k => Unset d sec k
  | .opLoad input => (ReadFrom d input).1

/-- Run a sequence of operations starting from the given document. -/
def runOps (d : Ini) : List Op → Ini
  | [] => d
  | op :: rest => runOps (applyOp d op) rest

theorem invNE_applyOp (d : Ini) (op : Op) (h : invNE d) : invNE (applyOp d op) := by
  cases op with
  | opSet sec k v => exact invNE_Set d sec k v h
  | opUnset sec k => exact invNE_Unset d sec k h
  | opLoad input => exact ReadFrom_invNE d input h

theorem invNE_runOps (ops : List Op) : ∀ d, invNE d → invNE (runOps d ops) := by
  induction ops with
  | nil => exact fun d h => h
  | cons op rest ih => exact fun d h => ih (applyOp d op) (invNE_applyOp d op h)

theorem findSec_delSec_self (d : Ini) (sec : Str) (h : (d.map Prod.fst).Nodup) :
    findSec (delSec sec d) sec = none := by
  induction d with
  | nil => rfl
  | cons p r ih =>
    obtain ⟨n0, s0⟩ := p
    have h2 : (r.map Prod.fst).Nodup := by
      simp only [List.map_cons, List.nodup_cons] at h
      exact h.2
    have h1 : n0 ∉ r.map Prod.fst := by
      simp only [List.map_cons, List.nodup_cons] at h
      exact h.1
    show findSec (if n0 = sec then r else (n0, s0) :: delSec sec r) sec = none
    by_cases he : n0 = sec
    · rw [if_pos he]
      apply findSec_eq_none
      rw [← he]
      exact h1
    · rw [if_neg he, findSec_cons, if_neg he]
      exact ih h2

theorem goLinesAux_no_newline (l : Str) (h : '\n' ∉ l) :
    ∀ acc, goLinesAux acc l = [dropCR (acc.reverse ++ l)] := by
  induction l with
  | nil =>
    intro acc
    show [dropCR acc.reverse] = _
    simp
  | cons c cs ih =>
    intro acc
    have hc : c ≠ '\n' := fun he => h (he ▸ List.mem_cons_self c cs)
    have hcs : '\n' ∉ cs := fun hm => h (List.mem_cons_of_mem _ hm)
    unfold goLinesAux
    rw [if_neg hc, ih hcs (c :: acc)]
    simp

theorem goLines_single (l : Str) (hne : l ≠ []) (h : '\n' ∉ l) :
    goLines l = [dropCR l] := by
  rw [goLines_of_ne_nil l hne, goLinesAux_no_newline l h []]
  simp

theorem ReadFrom_header (d : Ini) (n : Str) (h : wfName n) :
    ReadFrom d ('[' :: (n ++ [']'])) = (d, none) := by
  obtain ⟨hne, hnl, hw⟩ := h
  unfold ReadFrom
  have hgl : goLines ('[' :: (n ++ [']'])) = ['[' :: (n ++ [']'])] := by
    rw [goLines_single _ (by simp) (headerLine_ok n ⟨hne, hnl, hw⟩).1,
      (headerLine_ok n ⟨hne, hnl, hw⟩).2]
  rw [hgl, parseLinesSt_step_ok d rootName (d, n) 1 _ []
    (processLine_header d rootName n hne hw), parseLinesSt_nil]

/-- C4 (confirmed): starting from the empty Document returned by New, every
sequence of Set, Unset and ReadFrom/Load operations preserves the invariant
that every section entry present in the Document has at least one key;
Unset of the only key of a section also removes the section entry
(HasSection then returns false); and parsing a section header alone does
not create the section — the document is unchanged until a key line is
assigned to it. -/
theorem claim_C4_nonempty_invariant :
    (∀ ops, invNE (runOps New ops)) ∧
    (∀ d sec k v, (d.map Prod.fst).Nodup →
      findSec d (goToLower sec) = some [(goToLower k, v)] →
      HasSection (Unset d sec k) sec = false) ∧
    (∀ d n, wfName n → ReadFrom d ('[' :: (n ++ [']'])) = (d, none)) := by
  refine ⟨fun ops => invNE_runOps ops New invNE_nil, ?_, fun d n h => ReadFrom_header d n h⟩
  intro d sec k v hnd hfs
  rw [Unset_eq_some d sec k [(goToLower k, v)] hfs]
  have hdel : delKey (goToLower k) [(goToLower k, v)] = [] := by
    show (if goToLower k = goToLower k then [] else _) = []
    rw [if_pos rfl]
  rw [hdel, if_pos (show ([] : Sectn).length = 0 from rfl)]
  unfold HasSection
  rw [findSec_delSec_self d (goToLower sec) hnd]
  rfl

/-- Witness for C4: the three conjuncts applied at concrete inputs, with
the hypotheses discharged by computation. -/
theorem claim_C4_nonempty_invariant_witness :
    invNE (runOps New [Op.opSet ['A'] ['K'] ['v'],
      Op.opLoad ['x', '=', '1'], Op.opUnset ['a'] ['k']]) ∧
    HasSection (Unset [(['a'], [(['k'], ['v'])])] ['A'] ['K']) ['A'] = false ∧
    ReadFrom [] ('[' :: (['s'] ++ [']'])) = ([], none) :=
  ⟨claim_C4_nonempty_invariant.1
    [Op.opSet ['A'] ['K'] ['v'], Op.opLoad ['x', '=', '1'], Op.opUnset ['a'] ['k']],
   claim_C4_nonempty_invariant.2.1 [(['a'], [(['k'], ['v'])])] ['A'] ['K'] ['v']
     (by decide) (by decide),
   claim_C4_nonempty_invariant.2.2 [] ['s'] (by decide)⟩

/-! ### Claim C5: merge-on-error -/

/-- C5 (confirmed): parsing is not transactional.  Whenever an initial group
of lines parses without error, parsing the whole input continues from the
document and section state produced by that prefix — so everything merged by
earlier lines is kept when a later line fails; in particular parsing
"a=1\n[]" stops with the empty-section-name error on line 2 while the pair
a=1 from line 1 remains merged into the document, and Get("root","a")
returns ("1", true). -/
theorem claim_C5_merge_on_error :
    (∀ ls1 ls2 st st1 n, parseLinesSt st n ls1 = (st1, none) →
      parseLinesSt st n (ls1 ++ ls2) = parseLinesSt st1 (n + ls1.length) ls2) ∧
    ReadFrom New "a=1\n[]".toList =
      ([(rootName, [(['a'], ['1'])])], some ⟨2, .emptySectionName⟩) ∧
    Get (ReadFrom New "a=1\n[]".toList).1 "root".toList "a".toList = some ['1'] :=
  ⟨fun ls1 ls2 st st1 n h => parseLinesSt_append ls1 ls2 st st1 n h, rfl, rfl⟩

/-- Witness for C5: the continuation property applied to the concrete
prefix "a=1" and suffix "b=2". -/
theorem claim_C5_merge_on_error_witness :
    parseLinesSt (New, rootName) 1 ["a=1".toList] =
      (([(rootName, [(['a'], ['1'])])], rootName), none) ∧
    parseLinesSt (New, rootName) 1 (["a=1".toList] ++ ["b=2".toList]) =
      parseLinesSt ([(rootName, [(['a'], ['1'])])], rootName)
        (1 + ["a=1".toList].length) ["b=2".toList] :=
  ⟨rfl,
   claim_C5_merge_on_error.1 ["a=1".toList] ["b=2".toList] (New, rootName)
     ([(rootName, [(['a'], ['1'])])], rootName) 1 rfl⟩

/-! ### Claim C8: case-insensitive Get after Set -/

/-- C8 (confirmed): for every document and strings, Set(s,k,v) followed by
Get(s',k') returns the value for every case-variant s',k' of s,k (strings
equal after lower-casing); and the entry is stored under the lower-cased
section and key names (shown on the empty document). -/
theorem claim_C8_case_insensitive :
    (∀ d sec k v sec' k', goToLower sec' = goToLower sec →
      goToLower k' = goToLower k → Get (Set d sec k v) sec' k' = some v) ∧
    (∀ sec k v, Set New sec k v = [(goToLower sec, [(goToLower k, v)])]) := by
  constructor
  · intro d sec k v sec' k' hs hk
    rw [Get_eq_findVal]
    show findVal (setSecEntry (goToLower sec) (goToLower k) v d)
      (goToLower sec') (goToLower k') = some v
    rw [findVal_setSecEntry, if_pos ⟨hs, hk⟩]
  · intro sec k v
    rfl

/-- Witness for C8: Set with mixed-case names, Get with different casing. -/
theorem claim_C8_case_insensitive_witness :
    goToLower "aB".toList = goToLower "Ab".toList ∧
    goToLower "cD".toList = goToLower "Cd".toList ∧
    Get (Set New "Ab".toList "Cd".toList ['x']) "aB".toList "cD".toList = some ['x'] :=
  ⟨by decide, by decide,
   claim_C8_case_insensitive.1 New "Ab".toList "Cd".toList ['x'] "aB".toList
     "cD".toList (by decide) (by decide)⟩

/-! ### Claim C9: Set performs no validation of names -/

/-- C9 (confirmed): Set accepts empty section and key names and stores
entries retrievable by Get under the same empty names; serializing such a
document emits a line beginning with '=' (empty key) or a '[]' header line
(empty section name), and ReadFrom then rejects that output with the
empty-key-name or empty-section-name error, defeating the round trip. -/
theorem claim_C9_no_validation :
    (∀ sec v, Get (Set New sec [] v) sec [] = some v) ∧
    (∀ k v, Get (Set New [] k v) [] k = some v) ∧
    writeTo (Set New "sec".toList [] ['v']) = "[sec]\n=v\n\n".toList ∧
    (ReadFrom New (writeTo (Set New "sec".toList [] ['v']))).2 =
      some ⟨2, .emptyKeyName⟩ ∧
    writeTo (Set New [] ['k'] ['v']) = "[]\nk=v\n\n".toList ∧
    (ReadFrom New (writeTo (Set New [] ['k'] ['v']))).2 =
      some ⟨1, .emptySectionName⟩ := by
  refine ⟨?_, ?_, rfl, rfl, rfl, rfl⟩
  · intro sec v
    rw [Get_eq_findVal]
    show findVal (setSecEntry (goToLower sec) (goToLower []) v [])
      (goToLower sec) (goToLower []) = some v
    rw [findVal_setSecEntry, if_pos ⟨rfl, rfl⟩]
  · intro k v
    rw [Get_eq_findVal]
    show findVal (setSecEntry (goToLower []) (goToLower k) v [])
      (goToLower []) (goToLower k) = some v
    rw [findVal_setSecEntry, if_pos ⟨rfl, rfl⟩]

/-! ### Claim C10: Unset is a no-op on absent entries -/

theorem delKey_not_found (s : Sectn) (k : Str) (h : findKey s k = none) :
    delKey k s = s := by
  induction s with
  | nil => rfl
  | cons p r ih =>
    obtain ⟨k0, v0⟩ := p
    rw [findKey_cons] at h
    by_cases he : k0 = k
    · rw [if_pos he] at h
      exact absurd h (by simp)
    · rw [if_neg he] at h
      show (if k0 = k then r else (k0, v0) :: delKey k r) = _
      rw [if_neg he, ih h]

theorem replaceSec_self (d : Ini) (sec : Str) (s : Sectn)
    (h : findSec d sec = some s) : replaceSec sec s d = d := by
  induction d with
  | nil => rfl
  | cons p r ih =>
    obtain ⟨n0, s0⟩ := p
    rw [findSec_cons] at h
    show (if n0 = sec then (n0, s) :: r else (n0, s0) :: replaceSec sec s r) = _
    by_cases he : n0 = sec
    · rw [if_pos he] at h
      injection h with h2
      rw [if_pos he, h2]
    · rw [if_neg he] at h
      rw [if_neg he, ih h]

/-- C10 (confirmed): whenever the lower-cased section name is absent from
the document, or present with the lower-cased key absent from that section,
Unset(section, key) leaves the document completely unchanged — no error,
nothing added or removed.  The hypothesis that present sections are
non-empty is the document invariant from the data model (a section with
zero keys does not exist as an entry). -/
theorem claim_C10_unset_noop :
    ∀ d sec k, invNE d →
      (findSec d (goToLower sec) = none ∨
       (∃ s, findSec d (goToLower sec) = some s ∧ findKey s (goToLower k) = none)) →
      Unset d sec k = d := by
  intro d sec k hinv hc
  rcases hc with hc | ⟨s, hfs, hfk⟩
  · exact Unset_eq_none d sec k hc
  · rw [Unset_eq_some d sec k s hfs, delKey_not_found s (goToLower k) hfk]
    have hne : s ≠ [] := hinv (goToLower sec, s) (findSec_mem d (goToLower sec) s hfs)
    rw [if_neg (fun hz => hne (List.length_eq_zero.mp hz)), replaceSec_self d _ s hfs]

/-- Witness for C10: Unset of an absent section, and Unset of an absent key
in a present section, on a concrete document. -/
theorem claim_C10_unset_noop_witness :
    invNE [(['a'], [(['b'], ['c'])])] ∧
    Unset [(['a'], [(['b'], ['c'])])] ['x'] ['y'] = [(['a'], [(['b'], ['c'])])] ∧
    Unset [(['a'], [(['b'], ['c'])])] ['a'] ['z'] = [(['a'], [(['b'], ['c'])])] :=
  ⟨by decide,
   claim_C10_unset_noop [(['a'], [(['b'], ['c'])])] ['x'] ['y'] (by decide)
     (Or.inl (by decide)),
   claim_C10_unset_noop [(['a'], [(['b'], ['c'])])] ['a'] ['z'] (by decide)
     (Or.inr ⟨[(['b'], ['c'])], by decide, by decide⟩)⟩

/-! ### Claim C7: the delimiter is the line's first '=' -/

/-- C7 (confirmed): for every key-value line (a line that after trimming is
not blank, not a comment and not a section header), the parser splits at
the line's first '=' — key before, remainder after — and quote stripping
with escape decoding applies afterwards to the remainder only; in
particular parsing var1="value with = sign" stores key var1 with value
"value with = sign", the '=' inside the quotes not acting as a delimiter. -/
theorem claim_C7_first_equals :
    (∀ (doc : Ini) (sec line pre post : Str),
      splitFirstEq (trimSpace line) = some (pre, post) →
      (trimSpace line).head? ≠ some ';' →
      (trimSpace line).head? ≠ some '#' →
      ¬(2 ≤ (trimSpace line).length ∧ (trimSpace line).head? = some '[' ∧
        (trimSpace line).getLast? = some ']') →
      goToLower (trimSpace pre) ≠ [] →
      processLine doc sec line =
        .ok (setSecEntry sec (goToLower (trimSpace pre))
          (decodeValue (trimSpace post)) doc, sec)) ∧
    ReadFrom New "var1=\"value with = sign\"".toList =
      ([(rootName, [("var1".toList, "value with = sign".toList)])], none) ∧
    Get (ReadFrom New "var1=\"value with = sign\"".toList).1
      "root".toList "var1".toList = some "value with = sign".toList := by
  refine ⟨?_, rfl, rfl⟩
  intro doc sec line pre post hsp hc1 hc2 hh hk
  show processTrimmed doc sec (trimSpace line) = _
  cases hT : trimSpace line with
  | nil =>
    rw [hT] at hsp
    exact absurd hsp (by simp [splitFirstEq])
  | cons c rest =>
    rw [hT] at hsp hc1 hc2 hh
    have hnc : ¬(c = ';' ∨ c = '#') := by
      rintro (h | h)
      · exact hc1 (by rw [h]; rfl)
      · exact hc2 (by rw [h]; rfl)
    have hh' : ¬(2 ≤ (c :: rest).length ∧ c = '[' ∧
        (c :: rest).getLast? = some ']') := by
      rintro ⟨a, b, d2⟩
      exact hh ⟨a, by rw [b]; rfl, d2⟩
    simp only [processTrimmed, if_neg hnc, if_neg hh', hsp, if_neg hk]

/-- Witness for C7: the general split property applied to the concrete
line "k=v". -/
theorem claim_C7_first_equals_witness :
    splitFirstEq (trimSpace "k=v".toList) = some (['k'], ['v']) ∧
    (trimSpace "k=v".toList).head? ≠ some ';' ∧
    (trimSpace "k=v".toList).head? ≠ some '#' ∧
    ¬(2 ≤ (trimSpace "k=v".toList).length ∧
      (trimSpace "k=v".toList).head? = some '[' ∧
      (trimSpace "k=v".toList).getLast? = some ']') ∧
    goToLower (trimSpace ['k']) ≠ [] ∧
    processLine [] rootName "k=v".toList =
      .ok (setSecEntry rootName (goToLower (trimSpace ['k']))
        (decodeValue (trimSpace ['v'])) [], rootName) :=
  ⟨by decide, by decide, by decide, by decide, by decide,
   claim_C7_first_equals.1 [] rootName "k=v".toList ['k'] ['v']
     (by decide) (by decide) (by decide) (by decide) (by decide)⟩

/-! ### Claim C6: format errors, their exact conditions and positions -/

theorem splitFirstEq_none_not_mem (l : Str) (h : splitFirstEq l = none) :
    '=' ∉ l := by
  induction l with
  | nil => simp
  | cons c cs ih =>
    unfold splitFirstEq at h
    by_cases hc : c = '='
    · rw [if_pos hc] at h
      simp at h
    · rw [if_neg hc] at h
      intro hm
      rcases List.mem_cons.mp hm with hm | hm
      · exact hc hm.symm
      · cases hr : splitFirstEq cs with
        | none => exact ih hr hm
        | some p =>
          rw [hr] at h
          obtain ⟨a, b⟩ := p
          simp at h

theorem trimSpace_cons_ne_nil (c : Char) (x : Str) (h : goIsSpace c = false) :
    trimSpace (c :: x) ≠ [] := by
  unfold trimSpace trimLeft
  rw [List.dropWhile_cons, if_neg (by rw [h]; simp)]
  unfold trimRight
  intro hz
  have hz2 : (c :: x).reverse.dropWhile goIsSpace = [] := by
    have hz3 := congrArg List.reverse hz
    simpa using hz3
  rw [List.dropWhile_eq_nil_iff] at hz2
  have hc := hz2 c (by simp)
  rw [h] at hc
  simp at hc

/-- C6 (confirmed): ReadFrom fails with the empty-section-name error exactly
when the trimmed line is bracket-enclosed with empty trimmed interior; with
the empty-key-name error exactly when the text before the line's first '='
trims to empty; and with the missing-delimiter error exactly when a
non-blank, non-comment, non-header line contains no '='.  Each error
carries the 1-based number of the offending line, counting every scanned
line including blank and comment lines, and parsing stops at the first
error, as the concrete examples show. -/
theorem claim_C6_errors :
    (∀ (doc : Ini) (sec line : Str),
      (processLine doc sec line = .error .emptySectionName ↔
        2 ≤ (trimSpace line).length ∧ (trimSpace line).head? = some '[' ∧
        (trimSpace line).getLast? = some ']' ∧
        trimSpace (((trimSpace line).drop 1).dropLast) = []) ∧
      (processLine doc sec line = .error .emptyKeyName ↔
        ∃ pre post, splitFirstEq (trimSpace line) = some (pre, post) ∧
          trimSpace pre = []) ∧
      (processLine doc sec line = .error .missingDelimiter ↔
        trimSpace line ≠ [] ∧ (trimSpace line).head? ≠ some ';' ∧
        (trimSpace line).head? ≠ some '#' ∧
        ¬(2 ≤ (trimSpace line).length ∧ (trimSpace line).head? = some '[' ∧
          (trimSpace line).getLast? = some ']') ∧
        '=' ∉ trimSpace line)) ∧
    ReadFrom New "[]\nkey=value".toList = ([], some ⟨1, .emptySectionName⟩) ∧
    ReadFrom New "=value".toList = ([], some ⟨1, .emptyKeyName⟩) ∧
    ReadFrom New "invalid line without equals".toList =
      ([], some ⟨1, .missingDelimiter⟩) ∧
    ReadFrom New "\n; c\n[]".toList = ([], some ⟨3, .emptySectionName⟩) := by
  refine ⟨?_, rfl, rfl, rfl, rfl⟩
  intro doc sec line
  have hPL : processLine doc sec line = processTrimmed doc sec (trimSpace line) := rfl
  rw [hPL]
  cases hT : trimSpace line with
  | nil =>
    refine ⟨iff_of_false ?_ ?_, iff_of_false ?_ ?_, iff_of_false ?_ ?_⟩
    · simp [processTrimmed]
    · rintro ⟨ha, -, -, -⟩
      simp at ha
    · simp [processTrimmed]
    · rintro ⟨pre, post, hsp, -⟩
      simp [splitFirstEq] at hsp
    · simp [processTrimmed]
    · rintro ⟨ha, -⟩
      exact ha rfl
  | cons c rest =>
    have hcs : goIsSpace c = false :=
      head?_trimSpace_not_space line c (by rw [hT]; rfl)
    have hRHS2ne : c ≠ '=' →
        ¬(∃ pre post, splitFirstEq (c :: rest) = some (pre, post) ∧
          trimSpace pre = []) := by
      intro hcne
      rintro ⟨pre, post, hsp, htp⟩
      obtain ⟨heq, -⟩ := splitFirstEq_some _ _ _ hsp
      cases pre with
      | nil =>
        injection heq with h9 h10
        exact hcne h9
      | cons c0 preRest =>
        injection heq with h9 h10
        exact trimSpace_cons_ne_nil c0 preRest (by rw [← h9]; exact hcs) htp
    by_cases h1 : c = ';' ∨ c = '#'
    · have hred : processTrimmed doc sec (c :: rest) = .ok (doc, sec) := by
        simp only [processTrimmed, if_pos h1]
      have hcq : c ≠ '=' := by
        rcases h1 with h1 | h1 <;> (rw [h1]; decide)
      refine ⟨iff_of_false (by rw [hred]; simp) ?_,
        iff_of_false (by rw [hred]; simp) (hRHS2ne hcq),
        iff_of_false (by rw [hred]; simp) ?_⟩
      · rintro ⟨-, hb, -, -⟩
        have hcb : c = '[' := by simpa using hb
        rcases h1 with h1 | h1 <;>
          exact absurd (h1.symm.trans hcb) (by decide)
      · rintro ⟨-, hb, hb2, -, -⟩
        rcases h1 with h1 | h1
        · exact hb (by rw [h1]; rfl)
        · exact hb2 (by rw [h1]; rfl)
    · by_cases h2 : 2 ≤ (c :: rest).length ∧ c = '[' ∧ (c :: rest).getLast? = some ']'
      · have hcq : c ≠ '=' := by rw [h2.2.1]; decide
        by_cases h3 : goToLower (trimSpace rest.dropLast) = []
        · have hred : processTrimmed doc sec (c :: rest) =
              .error .emptySectionName := by
            simp only [processTrimmed, if_neg h1]
            rw [if_pos h2, if_pos h3]
          refine ⟨iff_of_true (by rw [hred]) ?_,
            iff_of_false (by rw [hred]; simp) (hRHS2ne hcq),
            iff_of_false (by rw [hred]; simp) ?_⟩
          · refine ⟨h2.1, by rw [h2.2.1]; rfl, h2.2.2, ?_⟩
            have h3' : trimSpace rest.dropLast = [] := by
              rcases (goToLower_eq_nil_iff (trimSpace rest.dropLast)).mp h3 with h3'
              exact h3'
            simpa using h3'
          · rintro ⟨-, -, -, hnh, -⟩
            exact hnh ⟨h2.1, by rw [h2.2.1]; rfl, h2.2.2⟩
        · have hred : processTrimmed doc sec (c :: rest) =
              .ok (doc, goToLower (trimSpace rest.dropLast)) := by
            simp only [processTrimmed, if_neg h1]
            rw [if_pos h2, if_neg h3]
          refine ⟨iff_of_false (by rw [hred]; simp) ?_,
            iff_of_false (by rw [hred]; simp) (hRHS2ne hcq),
            iff_of_false (by rw [hred]; simp) ?_⟩
          · rintro ⟨-, -, -, hd⟩
            have hd' : trimSpace rest.dropLast = [] := by simpa using hd
            exact h3 (by rw [hd']; rfl)
          · rintro ⟨-, -, -, hnh, -⟩
            exact hnh ⟨h2.1, by rw [h2.2.1]; rfl, h2.2.2⟩
      · have hRHS1ne : ¬(2 ≤ (c :: rest).length ∧ (c :: rest).head? = some '[' ∧
            (c :: rest).getLast? = some ']' ∧
            trimSpace (((c :: rest).drop 1).dropLast) = []) := by
          rintro ⟨ha, hb, hc2, -⟩
          exact h2 ⟨ha, by simpa using hb, hc2⟩
        cases hsp : splitFirstEq (c :: rest) with
        | none =>
          have hred : processTrimmed doc sec (c :: rest) =
              .error .missingDelimiter := by
            simp only [processTrimmed, if_neg h1, if_neg h2, hsp]
          refine ⟨iff_of_false (by rw [hred]; simp) hRHS1ne,
            iff_of_false (by rw [hred]; simp) ?_, iff_of_true (by rw [hred]) ?_⟩
          · rintro ⟨pre, post, hsp2, -⟩
            exact absurd hsp2 (by simp)
          · refine ⟨by simp, ?_, ?_, ?_, splitFirstEq_none_not_mem _ hsp⟩
            · intro hb
              exact h1 (Or.inl (by simpa using hb))
            · intro hb
              exact h1 (Or.inr (by simpa using hb))
            · rintro ⟨ha, hb, hc2⟩
              exact h2 ⟨ha, by simpa using hb, hc2⟩
        | some p =>
          obtain ⟨pre, post⟩ := p
          have hmem : '=' ∈ c :: rest := by
            rw [(splitFirstEq_some _ _ _ hsp).1]
            exact List.mem_append_right _ (List.mem_cons_self _ _)
          by_cases h4 : goToLower (trimSpace pre) = []
          · have hred : processTrimmed doc sec (c :: rest) =
                .error .emptyKeyName := by
              simp only [processTrimmed, if_neg h1, if_neg h2, hsp, if_pos h4]
            refine ⟨iff_of_false (by rw [hred]; simp) hRHS1ne,
              iff_of_true (by rw [hred]) ?_,
              iff_of_false (by rw [hred]; simp) ?_⟩
            · refine ⟨pre, post, rfl, ?_⟩
              rcases (goToLower_eq_nil_iff (trimSpace pre)).mp h4 with h4'
              exact h4'
            · rintro ⟨-, -, -, -, hnm⟩
              exact hnm hmem
          · have hred : processTrimmed doc sec (c :: rest) =
                .ok (setSecEntry sec (goToLower (trimSpace pre))
                  (decodeValue (trimSpace post)) doc, sec) := by
              simp only [processTrimmed, if_neg h1, if_neg h2, hsp, if_neg h4]
            refine ⟨iff_of_false (by rw [hred]; simp) hRHS1ne,
              iff_of_false (by rw [hred]; simp) ?_,
              iff_of_false (by rw [hred]; simp) ?_⟩
            · rintro ⟨pre2, post2, hsp2, htp2⟩
              injection hsp2 with hsp3
              injection hsp3 with hsp4 hsp5
              exact h4 (by rw [hsp4, htp2]; rfl)
            · rintro ⟨-, -, -, -, hnm⟩
              exact hnm hmem

end KLIni
